import Mathlib

/-!
Verification of the configuration-resolution and scale-generation engine of
postcss-typescaler.

The development shallowly embeds the engine's source files:
  - src/normalizer.ts   (typeStepsNormalizer, normalizeTypeSteps,
                         optionsNormalizers, normalizeOptions)
  - src/generator.ts    (generateStepsDeclarations, getFontSizeValue)
  - src/constants.ts    (BASE_FONT_SIZE, DEFAULT_OPTIONS, DEFAULT_STEPS,
                         TAILWIND_STEPS, getPresetSteps)
  - src/utils.ts        (roundFloat, deepMerge scoped to step maps)
  - src/log.ts          (the append-only diagnostics sink, threaded explicitly)

JavaScript numbers are idealized as exact rationals (every computation a claim
exercises stays inside ℚ: the float results agree with the rational ones on
those inputs).  JavaScript runtime values are modelled by `JSVal`, with
`undefined` and `null` kept distinct because the engine distinguishes them.
-/

namespace Typescaler

/-- A JavaScript runtime value as it flows through the option pipeline. -/
inductive JSVal where
  | undefined
  | null
  | num (q : ℚ)
  | str (s : String)
  | bool (b : Bool)
deriving DecidableEq, Repr

/-- ASCII decimal digit test (the `\d` class of the source's regexes),
phrased on character codes (48–57). -/
def isDigitCh (c : Char) : Bool :=
  48 ≤ c.toNat && c.toNat ≤ 57

/-- Whitespace removed by JavaScript's `String.prototype.trim` (ASCII part),
phrased on character codes: space, tab, LF, CR, VT, FF. -/
def isWsChar (c : Char) : Bool :=
  c.toNat = 32 || c.toNat = 9 || c.toNat = 10 || c.toNat = 13 || c.toNat = 11 || c.toNat = 12

/-- ASCII lowering, as `String.prototype.toLowerCase` acts on ASCII letters
(codes 65–90 shift by 32). -/
def lowerChar (c : Char) : Char :=
  if 65 ≤ c.toNat && c.toNat ≤ 90 then Char.ofNat (c.toNat + 32) else c

/-- Characters kept by the `prefix` normalizer's `replace(/[^a-zA-Z0-9_-]/g, "")`. -/
def pfxKeep (c : Char) : Bool :=
  isDigitCh c || (97 ≤ c.toNat && c.toNat ≤ 122) || (65 ≤ c.toNat && c.toNat ≤ 90)
    || c.toNat = 95 || c.toNat = 45

/-- Value of a digit string, most significant first. -/
def digitsToNat (cs : List Char) : ℕ :=
  cs.foldl (fun a c => 10 * a + (c.toNat - 48)) 0

/-- Trim both ends, as JavaScript `trim` does. -/
def trimChars (cs : List Char) : List Char :=
  ((cs.dropWhile isWsChar).reverse.dropWhile isWsChar).reverse

/-- JavaScript `value.trim()`. -/
def jsTrim (s : String) : String :=
  String.mk (trimChars s.data)

/-- JavaScript `value.trim().toLowerCase()` at the character-list level. -/
def lowerTrimChars (cs : List Char) : List Char :=
  (trimChars cs).map lowerChar

/-!
The standard rational operations `+ - * / ⁻¹` are `@[irreducible]` in this
toolchain, which stops kernel evaluation of closed facts.  The embedding
therefore computes with the following wrappers, built on `mkRat` (which does
reduce); each is proved equal to the standard operation below
(`qMul_eq` … `jsRound_eq_round`), so theorem statements can use either form.
-/

/-- Kernel-reducible multiplication on ℚ. -/
def qMul (a b : ℚ) : ℚ := mkRat (a.num * b.num) (a.den * b.den)

/-- Kernel-reducible addition on ℚ. -/
def qAdd (a b : ℚ) : ℚ := mkRat (a.num * b.den + b.num * a.den) (a.den * b.den)

/-- Kernel-reducible subtraction on ℚ. -/
def qSub (a b : ℚ) : ℚ := qAdd a (-b)

/-- Kernel-reducible inverse on ℚ (0 maps to 0, like `Rat.inv`). -/
def qInv (a : ℚ) : ℚ :=
  mkRat (if 0 ≤ a.num then (a.den : ℤ) else -(a.den : ℤ)) a.num.natAbs

/-- Kernel-reducible division on ℚ (division by 0 gives 0, like `Rat.div`). -/
def qDiv (a b : ℚ) : ℚ := qMul a (qInv b)

/-- Floor of a rational, computed directly on numerator and denominator
(equal to Mathlib's `Int.floor`, see `ratFloor_eq_floor`). -/
def ratFloor (q : ℚ) : ℤ := Int.fdiv q.num q.den

/-- `Math.round`: round half toward positive infinity (equal to Mathlib's
`round`, see `jsRound_eq_round`). -/
def jsRound (q : ℚ) : ℤ := ratFloor (qAdd q (mkRat 1 2))

/-- Kernel-reducible natural power on ℚ (equal to `^`, see
`ratNpow_eq_pow`). -/
def ratNpow (base : ℚ) : ℕ → ℚ
  | 0 => 1
  | n + 1 => qMul (ratNpow base n) base

/-- Kernel-reducible integer power on ℚ (equal to `^` on ℤ, see
`ratZpow_eq_zpow`). -/
def ratZpow (base : ℚ) : ℤ → ℚ
  | .ofNat n => ratNpow base n
  | .negSucc n => qInv (ratNpow base (n + 1))

/-- Decimal digits of the fractional part num/den (num < den), trailing zeros
never produced; fuel bounds the expansion (ample for every value produced by
`roundFloat`, which keeps at most three decimals). -/
def fracDigits : ℕ → ℕ → ℕ → List Char
  | 0, _, _ => []
  | _ + 1, 0, _ => []
  | fuel + 1, num, den =>
      let num10 := num * 10
      Char.ofNat (48 + num10 / den) :: fracDigits fuel (num10 % den) den

/-- JavaScript number-to-string conversion, idealized for rationals with a
terminating decimal expansion (the only ones the engine prints). -/
def ratToString (q : ℚ) : String :=
  let sgn := if q.num < 0 then "-" else ""
  let a : ℚ := if q.num < 0 then -q else q
  let ip : ℕ := (ratFloor a).toNat
  let fr : ℚ := qSub a (ip : ℚ)
  let ds := fracDigits 30 fr.num.toNat fr.den
  sgn ++ Nat.repr ip ++ (if ds.isEmpty then "" else "." ++ String.mk ds)

/-- Display of a JavaScript value inside a template literal, as in the
engine's diagnostic messages. -/
def jsValDisplay : JSVal → String
  | .undefined => "undefined"
  | .null => "null"
  | .num q => ratToString q
  | .str s => s
  | .bool true => "true"
  | .bool false => "false"

/-- Strip a leading run `p` from `cs`, or fail. -/
def remFront : List Char → List Char → Option (List Char)
  | [], cs => some cs
  | _ :: _, [] => none
  | a :: as, c :: cs => if a = c then remFront as cs else none

/-- Strip the suffix `sfx` from `cs`, or fail. -/
def stripSfx (sfx cs : List Char) : Option (List Char) :=
  (remFront sfx.reverse cs.reverse).map List.reverse

/-- The optional unit group of the source's `UNIT_REGEX = /^(\d*\.?\d+)(rem|em|px)?$/`. -/
inductive UnitSfx where
  | noUnit
  | px
  | em
  | rem
deriving DecidableEq, Repr

/-- The characters of a unit suffix. -/
def unitChars : UnitSfx → List Char
  | .noUnit => []
  | .px => ['p', 'x']
  | .em => ['e', 'm']
  | .rem => ['r', 'e', 'm']

/-- Split off the trailing unit, mirroring the regex's `(rem|em|px)?$` group. -/
def stripUnitSfx (cs : List Char) : List Char × UnitSfx :=
  match stripSfx (unitChars .rem) cs with
  | some pre => (pre, .rem)
  | none =>
    match stripSfx (unitChars .em) cs with
    | some pre => (pre, .em)
    | none =>
      match stripSfx (unitChars .px) cs with
      | some pre => (pre, .px)
      | none => (cs, .noUnit)

/-- The numeral group `\d*\.?\d+` of the source's `UNIT_REGEX`, with the value
`parseFloat` extracts from it. -/
def parseNumeral (cs : List Char) : Option ℚ :=
  let ip := cs.takeWhile isDigitCh
  match cs.dropWhile isDigitCh with
  | [] => if ip.isEmpty then none else some (digitsToNat ip)
  | c :: frac =>
      if c = '.' && !frac.isEmpty && frac.all isDigitCh then
        some (qAdd (digitsToNat ip : ℚ) (qDiv (digitsToNat frac : ℚ) (ratNpow 10 frac.length)))
      else
        none

/-- Full match of the source's `UNIT_REGEX` against a character list. -/
def matchUnit (cs : List Char) : Option (ℚ × UnitSfx) :=
  (parseNumeral (stripUnitSfx cs).1).map (fun q => (q, (stripUnitSfx cs).2))

/-- JavaScript `parseFloat` on a trimmed string, idealized over ℚ: longest
numeric prefix with optional sign, decimal point and exponent ("Infinity" is
not modelled; no claim exercises it). Returns `none` exactly when `parseFloat`
returns `NaN`. -/
def parseFloatQ (cs : List Char) : Option ℚ :=
  let (sgn, cs1) : ℚ × List Char :=
    match cs with
    | '-' :: t => (-1, t)
    | '+' :: t => (1, t)
    | _ => (1, cs)
  let ip := cs1.takeWhile isDigitCh
  let r1 := cs1.dropWhile isDigitCh
  let (fp, r2) : List Char × List Char :=
    match r1 with
    | '.' :: t => (t.takeWhile isDigitCh, t.dropWhile isDigitCh)
    | _ => ([], r1)
  if ip.isEmpty && fp.isEmpty then
    none
  else
    let base : ℚ := qMul sgn (qAdd (digitsToNat ip : ℚ) (qDiv (digitsToNat fp : ℚ) (ratNpow 10 fp.length)))
    let withExp : ℚ :=
      match r2 with
      | 'e' :: t => parseFloatExp base t
      | 'E' :: t => parseFloatExp base t
      | _ => base
    some withExp
where
  /-- The exponent part of `parseFloat`: sign and digits, ignored if absent. -/
  parseFloatExp (base : ℚ) (t : List Char) : ℚ :=
    let (esgn, t1) : ℤ × List Char :=
      match t with
      | '-' :: r => (-1, r)
      | '+' :: r => (1, r)
      | _ => (1, t)
    let ds := t1.takeWhile isDigitCh
    if ds.isEmpty then base else qMul base (ratZpow 10 (esgn * (digitsToNat ds : ℤ)))

/-! ## Option resolver (src/normalizer.ts `optionsNormalizers`, `normalizeOptions`;
src/constants.ts `BASE_FONT_SIZE`, `DEFAULT_OPTIONS`) -/

/-- The option fields the engine's option resolver knows about: the keys of
`optionsNormalizers` plus `preset`, the extra key of `DEFAULT_OPTIONS`. -/
inductive OptKey where
  | scale
  | fontSize
  | lineHeight
  | pfx
  | rounded
  | emit
  | preset
deriving DecidableEq, Repr

/-- The JavaScript property name of each option key. -/
def optKeyName : OptKey → String
  | .scale => "scale"
  | .fontSize => "fontSize"
  | .lineHeight => "lineHeight"
  | .pfx => "prefix"
  | .rounded => "rounded"
  | .emit => "emit"
  | .preset => "preset"

/-- The fixed iteration order used for `typedEntries(options)`; JavaScript
object insertion order only affects the relative order of diagnostics, which
no claim depends on. -/
def optKeys : List OptKey :=
  [.scale, .fontSize, .lineHeight, .pfx, .rounded, .emit, .preset]

/-- src/constants.ts: `export const BASE_FONT_SIZE = 16`. -/
def BASE_FONT_SIZE : ℚ := 16

/-- src/constants.ts `DEFAULT_OPTIONS`; keys the object does not carry
(`emit`) read as `undefined`, exactly as property access does. -/
def DEFAULT_OPTIONS : OptKey → JSVal
  | .scale => .num (mkRat 9 8)
  | .fontSize => .num 16
  | .lineHeight => .str "1.5"
  | .pfx => .str "text"
  | .rounded => .bool true
  | .emit => .undefined
  | .preset => .undefined

/-- `optionsNormalizers.scale`. -/
def normScale : JSVal → JSVal
  | .num q => .num q
  | _ => .null

/-- `optionsNormalizers.fontSize`: numbers pass through; strings are trimmed,
lowercased and matched against `UNIT_REGEX`; `em`/`rem` are resolved against
`BASE_FONT_SIZE`. -/
def normFontSizeOpt : JSVal → JSVal
  | .num q => .num q
  | .str s =>
      match matchUnit (lowerTrimChars s.data) with
      | none => .null
      | some (n, u) =>
          if u = UnitSfx.rem || u = UnitSfx.em then .num (qMul n BASE_FONT_SIZE) else .num n
  | _ => .null

/-- `optionsNormalizers.lineHeight`: numbers stringified, strings trimmed with
the empty string rejected (`value.trim() || null`). -/
def normLineHeightOpt : JSVal → JSVal
  | .num q => .str (ratToString q)
  | .str s => if (jsTrim s).data.isEmpty then .null else .str (jsTrim s)
  | _ => .null

/-- `optionsNormalizers.prefix`: strings filtered to `[a-zA-Z0-9_-]`. -/
def normPfx : JSVal → JSVal
  | .str s => .str (String.mk (s.data.filter pfxKeep))
  | _ => .null

/-- `optionsNormalizers.rounded`: booleans only. -/
def normRounded : JSVal → JSVal
  | .bool b => .bool b
  | _ => .null

/-- `optionsNormalizers.emit`: the lowercased string must be `"variables"`. -/
def normEmit : JSVal → JSVal
  | .str s => if String.mk (s.data.map lowerChar) = "variables" then .str "variables" else .null
  | _ => .null

/-- The dispatch table `optionsNormalizers`; `preset` has no normalizer in
the table, so it takes the unknown-property path. -/
def optionsNormalizers : OptKey → Option (JSVal → JSVal)
  | .scale => some normScale
  | .fontSize => some normFontSizeOpt
  | .lineHeight => some normLineHeightOpt
  | .pfx => some normPfx
  | .rounded => some normRounded
  | .emit => some normEmit
  | .preset => none

/-- A raw option mapping: a JavaScript object, `none` meaning the key is
absent. -/
def RawOptions : Type := OptKey → Option JSVal

/-- The empty raw option object. -/
def emptyRawOptions : RawOptions := fun _ => none

/-- A raw option object built from a key/value list (later entries win, like
object literals). -/
def rawOptionsOfList (l : List (OptKey × JSVal)) : RawOptions :=
  fun k => (l.reverse.find? (fun p => p.1 = k)).map Prod.snd

/-- Spread merge `{ ...a, ...b }` of two raw option objects. -/
def mergeRawOptions (a b : RawOptions) : RawOptions :=
  fun k => (b k).orElse (fun _ => a k)

/-- Diagnostic of `normalizeOptions` for a key without a normalizer. -/
def unknownOptMsg (k : OptKey) : String :=
  "Unknown property \"" ++ optKeyName k ++ "\" in @typescaler rule. Skipping."

/-- Diagnostic of `normalizeOptions` announcing fallback to the default. -/
def invalidDefaultMsg (k : OptKey) (v : JSVal) : String :=
  "Invalid " ++ optKeyName k ++ " value \"" ++ jsValDisplay v ++ "\". Using default value: "
    ++ jsValDisplay (DEFAULT_OPTIONS k) ++ "."

/-- Diagnostic of `normalizeOptions` for an invalid value with no default. -/
def invalidSkipMsg (k : OptKey) (v : JSVal) : String :=
  "Invalid " ++ optKeyName k ++ " value \"" ++ jsValDisplay v ++ "\". Skipping."

/-- Record an accepted normalized value (`normalizedOptions[key] = ...`). -/
def updateOpt (acc : OptKey → Option JSVal) (k : OptKey) (v : JSVal) : OptKey → Option JSVal :=
  fun k' => if k' = k then some v else acc k'

/-- The body of `normalizeOptions`' loop over `typedEntries(options)`,
threaded through the diagnostics sink.  Note the source's guard is
`normalizedValue !== undefined`, not `!== null`. -/
def normalizeOptionsGo (o : RawOptions) :
    List OptKey → (OptKey → Option JSVal) → List String →
      (OptKey → Option JSVal) × List String
  | [], acc, sink => (acc, sink)
  | k :: ks, acc, sink =>
      match o k with
      | none => normalizeOptionsGo o ks acc sink
      | some v =>
          match optionsNormalizers k with
          | none => normalizeOptionsGo o ks acc (sink ++ [unknownOptMsg k])
          | some f =>
              let nv := f v
              if nv ≠ JSVal.undefined then
                normalizeOptionsGo o ks (updateOpt acc k nv) sink
              else if DEFAULT_OPTIONS k ≠ JSVal.undefined then
                normalizeOptionsGo o ks acc (sink ++ [invalidDefaultMsg k v])
              else
                normalizeOptionsGo o ks acc (sink ++ [invalidSkipMsg k v])

/-- src/normalizer.ts `normalizeOptions`: normalize each present field, then
`{ ...DEFAULT_OPTIONS, ...normalizedOptions }`. -/
def normalizeOptions (o : RawOptions) (sink : List String) : (OptKey → JSVal) × List String :=
  let r := normalizeOptionsGo o optKeys (fun _ => none) sink
  (fun k => (r.1 k).getD (DEFAULT_OPTIONS k), r.2)

/-! ## Step resolver (src/normalizer.ts `typeStepsNormalizer`,
`normalizeTypeSteps`; src/utils.ts `deepMerge` scoped to step maps;
src/parser.ts `parseJsTypeSteps`; src/constants.ts step tables) -/

/-- The per-step fields of `TypeStep`. -/
inductive StepKey where
  | step
  | fontSize
  | lineHeight
  | letterSpacing
deriving DecidableEq, Repr

/-- The JavaScript property name of each step field. -/
def stepKeyName : StepKey → String
  | .step => "step"
  | .fontSize => "fontSize"
  | .lineHeight => "lineHeight"
  | .letterSpacing => "letterSpacing"

/-- Fixed iteration order for `typedEntries(stepConfig)` (affects only the
order of diagnostics within one step). -/
def stepKeys : List StepKey :=
  [.step, .fontSize, .lineHeight, .letterSpacing]

/-- A raw step definition: a JavaScript object of optional fields. -/
def RawStep : Type := StepKey → Option JSVal

/-- The empty raw step object. -/
def emptyRawStep : RawStep := fun _ => none

/-- A raw step object built from a key/value list (later entries win). -/
def rawStepOfList (l : List (StepKey × JSVal)) : RawStep :=
  fun k => (l.reverse.find? (fun p => p.1 = k)).map Prod.snd

/-- A normalized step definition (`NormalizedTypeStep`). -/
structure NStep where
  step : Option ℚ := none
  fontSize : Option String := none
  lineHeight : Option String := none
  letterSpacing : Option String := none
deriving DecidableEq, Repr

/-- `typeStepsNormalizer`, per field; returns the normalized value or `null`.
`step` uses `parseFloat(value.trim())`; `fontSize` packages numbers into a
`px` length and trims strings; `lineHeight` stringifies numbers and trims
strings; `letterSpacing` trims strings. -/
def normStepField : StepKey → JSVal → JSVal
  | .step, .num q => .num q
  | .step, .str s =>
      match parseFloatQ (trimChars s.data) with
      | some q => .num q
      | none => .null
  | .step, _ => .null
  | .fontSize, .num q => .str (ratToString q ++ "px")
  | .fontSize, .str s => .str (jsTrim s)
  | .fontSize, _ => .null
  | .lineHeight, .num q => .str (ratToString q)
  | .lineHeight, .str s => .str (jsTrim s)
  | .lineHeight, _ => .null
  | .letterSpacing, .str s => .str (jsTrim s)
  | .letterSpacing, _ => .null

/-- `typeStep[key] = normalizedValue`: record a normalized field value.  The
fallthrough cases are unreachable because each field's normalizer only
produces the field's own value shape. -/
def setNStepField (t : NStep) : StepKey → JSVal → NStep
  | .step, .num q => { t with step := some q }
  | .fontSize, .str s => { t with fontSize := some s }
  | .lineHeight, .str s => { t with lineHeight := some s }
  | .letterSpacing, .str s => { t with letterSpacing := some s }
  | _, _ => t

/-- Diagnostic for a step field whose value fails its normalizer. -/
def invalidStepFieldMsg (k : StepKey) (v : JSVal) (name : String) : String :=
  "Invalid " ++ stepKeyName k ++ " value \"" ++ jsValDisplay v ++ "\" in @" ++ name
    ++ ". Skipping."

/-- Diagnostic for a step lacking both `step` and `fontSize`. -/
def invalidConfigMsg (name : String) : String :=
  "Invalid config for \"" ++ name ++ "\" step. fontSize and step are both undefined. Skipping."

/-- The inner loop of `normalizeTypeSteps` over one step's fields. -/
def normalizeOneStep (name : String) (cfg : RawStep) :
    List StepKey → NStep → List String → NStep × List String
  | [], t, sink => (t, sink)
  | k :: ks, t, sink =>
      match cfg k with
      | none => normalizeOneStep name cfg ks t sink
      | some v =>
          let nv := normStepField k v
          if nv = JSVal.null then
            normalizeOneStep name cfg ks t (sink ++ [invalidStepFieldMsg k v name])
          else
            normalizeOneStep name cfg ks (setNStepField t k nv) sink

/-- One iteration of `normalizeTypeSteps`' outer loop: normalize a step's
fields, then drop the step when both `step` and `fontSize` are still
undefined (logging the drop). -/
def processStep (p : String × RawStep) (sink : List String) :
    Option (String × NStep) × List String :=
  let r := normalizeOneStep p.1 p.2 stepKeys {} sink
  if r.1.step = none ∧ r.1.fontSize = none then
    (none, r.2 ++ [invalidConfigMsg p.1])
  else
    (some (p.1, r.1), r.2)

/-- The outer loop of `normalizeTypeSteps` over `Object.entries(steps)`. -/
def normalizeTypeStepsGo :
    List (String × RawStep) → List String → List (String × NStep) × List String
  | [], sink => ([], sink)
  | p :: rest, sink =>
      match (processStep p sink).1 with
      | none => normalizeTypeStepsGo rest (processStep p sink).2
      | some e =>
          ((e :: (normalizeTypeStepsGo rest (processStep p sink).2).1),
            (normalizeTypeStepsGo rest (processStep p sink).2).2)

/-- src/constants.ts `DEFAULT_STEPS`. -/
def DEFAULT_STEPS : List (String × NStep) :=
  [ ("xs", { step := some (-2), lineHeight := some "1.3" }),
    ("sm", { step := some (-1), lineHeight := some "1.4" }),
    ("base", { step := some 0, lineHeight := some "1.6" }),
    ("md", { step := some 0, lineHeight := some "1.6" }),
    ("lg", { step := some 1, lineHeight := some "1.5" }),
    ("xl", { step := some 2, lineHeight := some "1.4" }),
    ("2xl", { step := some 3, lineHeight := some "1.3" }),
    ("3xl", { step := some 4, lineHeight := some "1.2" }),
    ("4xl", { step := some 5, lineHeight := some "1.1" }),
    ("5xl", { step := some 6, lineHeight := some "1" }),
    ("6xl", { step := some 7, lineHeight := some "1" }),
    ("7xl", { step := some 8, lineHeight := some "1" }),
    ("8xl", { step := some 9, lineHeight := some "1" }),
    ("9xl", { step := some 10, lineHeight := some "1" }) ]

/-- src/constants.ts `TAILWIND_STEPS`. -/
def TAILWIND_STEPS : List (String × NStep) :=
  [ ("xs", { fontSize := some "0.75rem", lineHeight := some "calc(1 / 0.75)" }),
    ("sm", { fontSize := some "0.875rem", lineHeight := some "calc(1.25 / 0.875)" }),
    ("base", { fontSize := some "1rem", lineHeight := some "calc(1.5 / 1)" }),
    ("lg", { fontSize := some "1.125rem", lineHeight := some "calc(1.75 / 1.125)" }),
    ("xl", { fontSize := some "1.25rem", lineHeight := some "calc(1.75 / 1.25)" }),
    ("2xl", { fontSize := some "1.5rem", lineHeight := some "calc(2 / 1.5)" }),
    ("3xl", { fontSize := some "1.875rem", lineHeight := some "calc(2.25 / 1.875)" }),
    ("4xl", { fontSize := some "2.25rem", lineHeight := some "calc(2.5 / 2.25)" }),
    ("5xl", { fontSize := some "3rem", lineHeight := some "1" }),
    ("6xl", { fontSize := some "3.75rem", lineHeight := some "1" }),
    ("7xl", { fontSize := some "4.5rem", lineHeight := some "1" }),
    ("8xl", { fontSize := some "6rem", lineHeight := some "1" }),
    ("9xl", { fontSize := some "8rem", lineHeight := some "1" }) ]

/-- src/normalizer.ts `normalizeTypeSteps`: normalize every step, then fall
back to `DEFAULT_STEPS` when the normalized map is empty. -/
def normalizeTypeSteps (steps : List (String × RawStep)) (sink : List String) :
    List (String × NStep) × List String :=
  let r := normalizeTypeStepsGo steps sink
  (if r.1.isEmpty then DEFAULT_STEPS else r.1, r.2)

/-- src/constants.ts `getPresetSteps`: the preset option value (a JavaScript
value, `undefined` when unset) selects a canned table or the empty map. -/
def getPresetSteps : JSVal → List (String × NStep)
  | .str s => if s = "tailwind" then TAILWIND_STEPS else if s = "default" then DEFAULT_STEPS else []
  | _ => []

/-- View a normalized step as a raw step object (they are the same runtime
object in the source; preset tables re-enter `deepMerge` in this shape). -/
def nstepToRaw (t : NStep) : RawStep := fun k =>
  match k with
  | .step => t.step.map JSVal.num
  | .fontSize => t.fontSize.map JSVal.str
  | .lineHeight => t.lineHeight.map JSVal.str
  | .letterSpacing => t.letterSpacing.map JSVal.str

/-- A step source entry: bare numeric shorthand or a config object. -/
inductive RawStepInput where
  | shorthand (q : ℚ)
  | config (fields : RawStep)

/-- src/parser.ts `parseJsTypeSteps`: numeric shorthand becomes `{ step: n }`. -/
def parseJsTypeSteps (steps : List (String × RawStepInput)) : List (String × RawStep) :=
  steps.map (fun p =>
    match p.2 with
    | .shorthand q => (p.1, fun k => if k = StepKey.step then some (JSVal.num q) else none)
    | .config c => (p.1, c))

/-- First-match association lookup (JavaScript objects have unique keys). -/
def lookupStep {α : Type} : List (String × α) → String → Option α
  | [], _ => none
  | p :: rest, name => if p.1 = name then some p.2 else lookupStep rest name

/-- src/utils.ts `deepMerge` at the field level of one step: every field
present in the higher-precedence object wins; the rest fall through. -/
def mergeStepFields (x y : RawStep) : RawStep :=
  fun k => (y k).orElse (fun _ => x k)

/-- src/utils.ts `deepMerge` at the step-map level: keys of `a` first (their
values field-merged with `b`'s when the key is shared), then the keys only
`b` has, in order. -/
def mergeStepMaps (a b : List (String × RawStep)) : List (String × RawStep) :=
  (a.map (fun p =>
    match lookupStep b p.1 with
    | some y => (p.1, mergeStepFields p.2 y)
    | none => p))
  ++ b.filter (fun p => (lookupStep a p.1).isNone)

/-! ## Scale generator (src/generator.ts `generateStepsDeclarations`,
`getFontSizeValue`; src/utils.ts `roundFloat`) -/

/-- The resolved option bundle the generator consumes
(`NormalizedPluginOptions`). -/
structure Bundle where
  scale : ℚ
  fontSize : ℚ
  lineHeight : String
  pfx : String
  rounded : Bool
  stepOffset : ℚ
deriving DecidableEq, Repr

/-- src/utils.ts `roundFloat(value, precision)` =
`parseFloat(value.toFixed(precision))`: round to `p` decimals, ties toward
the larger value, exactly `toFixed`'s rule. -/
def roundFloat (q : ℚ) (p : ℕ) : ℚ :=
  qDiv (jsRound (qMul q (ratNpow 10 p)) : ℚ) (ratNpow 10 p)

/-- `Math.pow` restricted to the rational-exponent values the engine meets;
exact for integer exponents (non-integer exponents are irrational in general
and outside this development; no claim exercises them). -/
def jsPow (base e : ℚ) : ℚ :=
  if e.den = 1 then ratZpow base e.num else 0

/-- JavaScript truthiness of an optional string (`undefined` and `""` are
falsy). -/
def strTruthy : Option String → Bool
  | some s => !s.data.isEmpty
  | none => false

/-- src/generator.ts `getFontSizeValue`: an explicit truthy `fontSize` is
returned verbatim; otherwise the geometric size
`options.fontSize * options.scale ^ (step + options.stepOffset)` is rounded
(`Math.round` or `roundFloat(·, 2)`), converted to rem with `roundFloat`'s
default 3-decimal precision and formatted with the pixel comment. -/
def getFontSizeValue (t : NStep) (o : Bundle) : Option String :=
  if strTruthy t.fontSize then t.fontSize
  else
    match t.step with
    | none => none
    | some st =>
        let px := qMul o.fontSize (jsPow o.scale (qAdd st o.stepOffset))
        let rounded : ℚ := if o.rounded then (jsRound px : ℚ) else roundFloat px 2
        some (ratToString (roundFloat (qDiv rounded BASE_FONT_SIZE) 3)
          ++ "rem /* " ++ ratToString rounded ++ "px */")

/-- One output entry of the generator, keyed by step name: the size, line
height and optional letter spacing value strings
(`createVariableDeclarations` without the document-syntax wrapping). -/
structure OutputEntry where
  sizeDecl : String
  lineHeightDecl : String
  letterSpacingDecl : Option String
deriving DecidableEq, Repr

/-- The effect of one iteration of `generateStepsDeclarations`' loop: `none`
when the step is skipped (`if (!fontSize) continue`, which also catches the
empty string), otherwise the produced entry.  Line height falls back to the
bundle's (`??`); letter spacing is emitted only when truthy. -/
def genStep (o : Bundle) (p : String × NStep) : Option (String × OutputEntry) :=
  match getFontSizeValue p.2 o with
  | none => none
  | some fs =>
      if fs.data.isEmpty then none
      else
        some (p.1,
          { sizeDecl := fs,
            lineHeightDecl := p.2.lineHeight.getD o.lineHeight,
            letterSpacingDecl :=
              if strTruthy p.2.letterSpacing then p.2.letterSpacing else none })

/-- src/generator.ts `generateStepsDeclarations`: the loop over
`Object.entries(steps)`.  The source never logs here. -/
def generateStepsDeclarations (o : Bundle) : List (String × NStep) → List (String × OutputEntry)
  | [] => []
  | p :: rest =>
      match genStep o p with
      | none => generateStepsDeclarations o rest
      | some e => e :: generateStepsDeclarations o rest

/-! ## Pipeline wiring (the plugin body: merge option sources, resolve
options, look up the preset, merge the three step sources, normalize, then
generate) -/

/-- Read the resolver's output object as a typed `Bundle` for the generator,
as the source's `NormalizedPluginOptions` annotation asserts.  A field whose
runtime value does not have the promised shape (reachable only through the
resolver's `!== undefined` slip) falls back to a fixed benign value here;
`stepOffset` is `Modelled from the spec:` the snapshot's normalizer does not
resolve a stepOffset option, and the spec/README fix its default at 0. -/
def toBundle (f : OptKey → JSVal) : Bundle :=
  { scale := match f .scale with | .num q => q | _ => 0,
    fontSize := match f .fontSize with | .num q => q | _ => 0,
    lineHeight := match f .lineHeight with | .str s => s | _ => "",
    pfx := match f .pfx with | .str s => s | _ => "",
    rounded := match f .rounded with | .bool b => b | _ => true,
    stepOffset := 0 }

/-- The four configuration-source snapshots one resolution pass consumes. -/
structure PipelineInput where
  jsOptions : RawOptions
  cssOptions : RawOptions
  jsSteps : List (String × RawStepInput)
  cssSteps : List (String × RawStep)

/-- One full resolution pass: `{ ...jsOptions, ...cssOptions }` →
`normalizeOptions` → `getPresetSteps` → `deepMerge(jsSteps, presetSteps,
cssSteps)` → `normalizeTypeSteps` → `generateStepsDeclarations`, with the
diagnostics sink threaded through. -/
def runPipeline (inp : PipelineInput) (sink : List String) :
    List (String × OutputEntry) × List String :=
  let ro := normalizeOptions (mergeRawOptions inp.jsOptions inp.cssOptions) sink
  let presetSteps := (getPresetSteps (ro.1 .preset)).map (fun p => (p.1, nstepToRaw p.2))
  let merged :=
    mergeStepMaps (mergeStepMaps (parseJsTypeSteps inp.jsSteps) presetSteps) inp.cssSteps
  let ns := normalizeTypeSteps merged ro.2
  (generateStepsDeclarations (toBundle ro.1) ns.1, ns.2)

/-- The pass with no configuration at all. -/
def emptyPipelineInput : PipelineInput :=
  { jsOptions := emptyRawOptions, cssOptions := emptyRawOptions, jsSteps := [], cssSteps := [] }

/-- The value `normalizeOptions` stores for a present key `k`. -/
def resolveOne (o : RawOptions) (k : OptKey) (fallback : Option JSVal) : Option JSVal :=
  match o k, optionsNormalizers k with
  | some v, some f => if f v ≠ JSVal.undefined then some (f v) else fallback
  | _, _ => fallback

/-- The step source of the C3 counterexample: a step defining only a line
height and a letter spacing, both of which normalize cleanly. -/
def c3Cfg : RawStep := fun k =>
  match k with
  | .lineHeight => some (.str "1.4")
  | .letterSpacing => some (.str "0.01em")
  | _ => none

/-- The pass of the C3 counterexample: that step is the only one configured. -/
def c3Input : PipelineInput :=
  { jsOptions := emptyRawOptions, cssOptions := emptyRawOptions, jsSteps := [],
    cssSteps := [("sm", c3Cfg)] }

/-- Specification-side shape of the numeral group `\d*\.?\d+`: a nonempty
digit run, or digits, a dot, and a nonempty digit run. -/
def NumeralShape (cs : List Char) : Prop :=
  (cs ≠ [] ∧ ∀ c ∈ cs, isDigitCh c = true)
  ∨ ∃ a b, cs = a ++ '.' :: b ∧ (∀ c ∈ a, isDigitCh c = true) ∧ b ≠ []
      ∧ ∀ c ∈ b, isDigitCh c = true

/-- Specification-side shape of a string the plugin-level `fontSize`
normalizer accepts: a numeral followed by an optional unit. -/
def UnitShape (cs : List Char) : Prop :=
  ∃ pre u, cs = pre ++ unitChars u ∧ NumeralShape pre

/-- Specification-side unit semantics of the claim: unit-less and `px`
values are pixels already; `em` and `rem` scale by the base constant. -/
def unitFactor : UnitSfx → ℚ
  | .em => BASE_FONT_SIZE
  | .rem => BASE_FONT_SIZE
  | _ => 1

/-! ## Bridges from the kernel-reducible arithmetic to the standard one -/

theorem qMul_eq (a b : ℚ) : qMul a b = a * b := by
  rw [qMul, Rat.mkRat_eq_div]
  push_cast
  conv_rhs => rw [← Rat.num_div_den a, ← Rat.num_div_den b]
  rw [div_mul_div_comm]

theorem qAdd_eq (a b : ℚ) : qAdd a b = a + b := by
  rw [qAdd, Rat.mkRat_eq_div]
  have ha : (a.den : ℚ) ≠ 0 := by exact_mod_cast a.den_nz
  have hb : (b.den : ℚ) ≠ 0 := by exact_mod_cast b.den_nz
  push_cast
  conv_rhs => rw [← Rat.num_div_den a, ← Rat.num_div_den b]
  rw [div_add_div _ _ ha hb]
  ring_nf

theorem qSub_eq (a b : ℚ) : qSub a b = a - b := by
  rw [qSub, qAdd_eq, sub_eq_add_neg]

theorem qInv_eq (a : ℚ) : qInv a = a⁻¹ := by
  rcases lt_trichotomy a.num 0 with h | h | h
  · rw [qInv, if_neg (not_le.2 h), Rat.mkRat_eq_div]
    push_cast [Int.cast_natAbs]
    rw [abs_of_neg (show (a.num : ℚ) < 0 by exact_mod_cast h), neg_div_neg_eq]
    conv_rhs => rw [← Rat.num_div_den a, inv_div]
  · have ha : a = 0 := Rat.num_eq_zero.mp h
    subst ha
    rw [qInv]
    norm_num [Rat.mkRat_eq_div]
  · rw [qInv, if_pos (le_of_lt h), Rat.mkRat_eq_div]
    push_cast [Int.cast_natAbs]
    rw [abs_of_pos (show (0 : ℚ) < (a.num : ℚ) by exact_mod_cast h)]
    conv_rhs => rw [← Rat.num_div_den a, inv_div]

theorem qDiv_eq (a b : ℚ) : qDiv a b = a / b := by
  rw [qDiv, qMul_eq, qInv_eq, div_eq_mul_inv]

theorem ratFloor_eq_floor (q : ℚ) : ratFloor q = ⌊q⌋ := by
  rw [ratFloor, Int.fdiv_eq_ediv _ (by exact_mod_cast Nat.zero_le q.den), Rat.floor_def]

theorem jsRound_eq_round (q : ℚ) : jsRound q = round q := by
  rw [jsRound, ratFloor_eq_floor, qAdd_eq, round_eq]
  norm_num [Rat.mkRat_eq_div]

theorem ratNpow_eq_pow (b : ℚ) (n : ℕ) : ratNpow b n = b ^ n := by
  induction n with
  | zero => rw [ratNpow, pow_zero]
  | succ n ih => rw [ratNpow, pow_succ, qMul_eq, ih]

theorem ratZpow_eq_zpow (b : ℚ) (z : ℤ) : ratZpow b z = b ^ z := by
  cases z with
  | ofNat n => rw [ratZpow, ratNpow_eq_pow, Int.ofNat_eq_coe, zpow_natCast]
  | negSucc n => rw [ratZpow, qInv_eq, ratNpow_eq_pow, zpow_negSucc]

/-- `jsPow` agrees with the exact power on integer exponents. -/
theorem jsPow_int (b : ℚ) (z : ℤ) : jsPow b (z : ℚ) = b ^ z := by
  rw [jsPow, if_pos (Rat.den_intCast z), Rat.num_intCast, ratZpow_eq_zpow]

/-! ## Claim C1 -/

/-- Claim C1: the claim says a recognized field whose raw value is rejected by
its normalizer comes back as the static default with an "Invalid … Using
default value …" diagnostic.  The code does not do that: its normalizers
reject with `null` while the acceptance guard tests `!== undefined`, so the
rejected `scale: "abc"` is stored as `null` into the bundle (overriding the
default 1.125) and no diagnostic at all is appended — the fallback-and-log
branch is dead code. -/
theorem c1_invalid_scale_stored_null_no_diagnostic :
    (normalizeOptions (rawOptionsOfList [(OptKey.scale, JSVal.str "abc")]) []).1 OptKey.scale
        = JSVal.null
      ∧ (normalizeOptions (rawOptionsOfList [(OptKey.scale, JSVal.str "abc")]) []).1 OptKey.scale
          ≠ DEFAULT_OPTIONS OptKey.scale
      ∧ (normalizeOptions (rawOptionsOfList [(OptKey.scale, JSVal.str "abc")]) []).2 = [] :=
  ⟨by decide, by decide, by decide⟩

/-! ## Claim C2 -/

/-- Claim C2: with resolved options fontSize=16, scale=1.2, rounded=true,
stepOffset=0, a step `-1` with no explicit fontSize yields exactly
`"0.813rem /* 13px */"`; and in general (integer effective exponent, rounded
mode) a non-explicit size is `fontSize * scale ^ (step + stepOffset)` rounded
to the nearest integer, divided by `BASE_FONT_SIZE` at 3-decimal precision,
formatted as `"<value>rem /* <px>px */"`. -/
theorem c2_geometric_size :
    (getFontSizeValue { step := some (-1) }
        { scale := mkRat 6 5, fontSize := 16, lineHeight := "1.5", pfx := "text",
          rounded := true, stepOffset := 0 }
      = some "0.813rem /* 13px */")
    ∧ ∀ (t : NStep) (o : Bundle) (q : ℚ) (z : ℤ),
        t.fontSize = none → t.step = some q → o.rounded = true →
        q + o.stepOffset = (z : ℚ) →
        getFontSizeValue t o
          = some (ratToString
                ((round (((round (o.fontSize * o.scale ^ z) : ℚ) / BASE_FONT_SIZE) * 1000) : ℚ)
                  / 1000)
              ++ "rem /* " ++ ratToString ((round (o.fontSize * o.scale ^ z)) : ℚ) ++ "px */") := by
  constructor
  · decide
  · intro t o q z hfs hst hr hz
    rw [getFontSizeValue, hfs, hst]
    have hq : qAdd q o.stepOffset = (z : ℚ) := by rw [qAdd_eq, hz]
    rw [show strTruthy none = false from rfl]
    simp only [Bool.false_eq_true, if_false]
    rw [hq, jsPow_int, hr]
    simp only [if_true]
    rw [roundFloat, qMul_eq, jsRound_eq_round, qDiv_eq, qMul_eq, jsRound_eq_round, qDiv_eq]
    rw [show ratNpow 10 3 = 1000 by rw [ratNpow_eq_pow]; norm_num]

/-- Witness for C2's general clause: instantiating it at the concrete bundle
reproduces the first clause's string. -/
theorem c2_geometric_size_witness :
    getFontSizeValue { step := some (-1) }
        { scale := mkRat 6 5, fontSize := 16, lineHeight := "1.5", pfx := "text",
          rounded := true, stepOffset := 0 }
      = some "0.813rem /* 13px */" := by
  have h := c2_geometric_size.2 { step := some (-1) }
    { scale := mkRat 6 5, fontSize := 16, lineHeight := "1.5", pfx := "text",
      rounded := true, stepOffset := 0 }
    (-1) (-1) rfl rfl rfl (by norm_num)
  rw [h]
  simp only [← qMul_eq, ← qDiv_eq, ← ratZpow_eq_zpow, ← jsRound_eq_round]
  decide

/-! ## String helpers shared by the claim proofs -/

theorem string_eq_empty_of_data {s : String} (h : s.data = []) : s = "" := by
  cases s with
  | mk l => cases h; rfl

theorem strTruthy_of_ne {s : String} (h : s ≠ "") : strTruthy (some s) = true := by
  rw [strTruthy]
  cases hs : s.data with
  | nil => exact absurd (string_eq_empty_of_data hs) h
  | cons c t => rfl

/-! ## Claim C6 -/

/-- Claim C6: whenever merging and normalizing leaves the step map empty, the
step resolver substitutes the static `DEFAULT_STEPS` table; in particular the
all-empty configuration resolves to `DEFAULT_STEPS` with no diagnostics, and
the pipeline's final output map carries exactly the default step names. -/
theorem c6_empty_step_map_falls_back_to_defaults :
    (∀ (steps : List (String × RawStep)) (sink : List String),
        (normalizeTypeStepsGo steps sink).1 = [] →
        (normalizeTypeSteps steps sink).1 = DEFAULT_STEPS)
    ∧ normalizeTypeSteps [] [] = (DEFAULT_STEPS, [])
    ∧ (runPipeline emptyPipelineInput []).1.map Prod.fst = DEFAULT_STEPS.map Prod.fst := by
  refine ⟨?_, by decide, by decide⟩
  intro steps sink h
  rw [normalizeTypeSteps]
  rw [h]
  rfl

/-- Witness for C6: a configuration whose only step is dropped (it defines
nothing but a line height) resolves to the default step map. -/
theorem c6_fallback_witness :
    (normalizeTypeSteps [("ghost", rawStepOfList [(StepKey.lineHeight, JSVal.str "2")])] []).1
      = DEFAULT_STEPS :=
  c6_empty_step_map_falls_back_to_defaults.1 _ _ (by decide)

/-! ## Claim C7 -/

/-- Claim C7 counterexample: the claim quantifies over every step that
defines an explicit `fontSize`, but the source guards with JavaScript
truthiness (`if (type.fontSize)`), so a defined-but-empty `fontSize` is not
emitted verbatim: with a co-present `step` the geometric computation runs
instead, i.e. the step value does have a numeric effect. -/
theorem c7_empty_fontSize_not_verbatim :
    getFontSizeValue { step := some 1, fontSize := some "" }
        { scale := mkRat 6 5, fontSize := 16, lineHeight := "1.5", pfx := "text",
          rounded := false, stepOffset := 0 }
      ≠ some ""
    ∧ getFontSizeValue { step := some 1, fontSize := some "" }
        { scale := mkRat 6 5, fontSize := 16, lineHeight := "1.5", pfx := "text",
          rounded := false, stepOffset := 0 }
      = some "1.2rem /* 19.2px */" :=
  ⟨by decide, by decide⟩

/-- Claim C7 as amended: a step defining a non-empty explicit `fontSize`
string has it emitted verbatim (no pixel comment, the co-present `step`
value numerically inert), both by `getFontSizeValue` and as the size
declaration of the generator's entry for that step. -/
theorem c7_nonempty_fontSize_verbatim (t : NStep) (o : Bundle) (s : String)
    (hfs : t.fontSize = some s) (hne : s ≠ "") :
    getFontSizeValue t o = some s
    ∧ ∀ name : String, (genStep o (name, t)).map (fun p => p.2.sizeDecl) = some s := by
  have hval : getFontSizeValue t o = some s := by
    rw [getFontSizeValue, hfs, strTruthy_of_ne hne]
    rfl
  refine ⟨hval, fun name => ?_⟩
  rw [genStep]
  rw [show (name, t).2 = t from rfl, hval]
  have hdata : s.data.isEmpty = false := by
    cases hs : s.data with
    | nil => exact absurd (string_eq_empty_of_data hs) hne
    | cons c cs => rfl
  simp [hdata]

/-- Witness for C7's amended theorem at `fontSize: "2rem"` with a co-present
`step` value. -/
theorem c7_verbatim_witness :
    getFontSizeValue { step := some 5, fontSize := some "2rem" }
        { scale := mkRat 6 5, fontSize := 16, lineHeight := "1.5", pfx := "text",
          rounded := true, stepOffset := 0 }
      = some "2rem" :=
  (c7_nonempty_fontSize_verbatim { step := some 5, fontSize := some "2rem" }
    { scale := mkRat 6 5, fontSize := 16, lineHeight := "1.5", pfx := "text",
      rounded := true, stepOffset := 0 }
    "2rem" rfl (by decide)).1

/-! ## Claim C10 -/

/-- Claim C10: the generator is the total loop `filterMap genStep` (it never
raises and never logs); a whitespace-only raw `fontSize` normalizes to the
empty string and the step survives the structural-completeness filter; such
a step (empty `fontSize`, no `step`) is skipped by the generator; and adding
it to a configuration changes neither the output map nor the diagnostics of
a full pass. -/
theorem c10_generator_total_empty_fontSize_skipped :
    ((processStep ("ghost", rawStepOfList [(StepKey.fontSize, JSVal.str "   ")]) []).1
        = some ("ghost", { fontSize := some "" }))
    ∧ (∀ (o : Bundle) (name : String) (t : NStep),
        t.fontSize = some "" → t.step = none → genStep o (name, t) = none)
    ∧ (∀ (o : Bundle) (steps : List (String × NStep)),
        generateStepsDeclarations o steps = steps.filterMap (genStep o))
    ∧ runPipeline
        { jsOptions := emptyRawOptions, cssOptions := emptyRawOptions, jsSteps := [],
          cssSteps := [("base", rawStepOfList [(StepKey.step, JSVal.num 0)]),
                       ("ghost", rawStepOfList [(StepKey.fontSize, JSVal.str "   ")])] } []
      = runPipeline
          { jsOptions := emptyRawOptions, cssOptions := emptyRawOptions, jsSteps := [],
            cssSteps := [("base", rawStepOfList [(StepKey.step, JSVal.num 0)])] } [] := by
  refine ⟨by decide, ?_, ?_, by decide⟩
  · intro o name t hfs hst
    rw [genStep]
    rw [show (name, t).2 = t from rfl]
    rw [getFontSizeValue, hfs, hst]
    rfl
  · intro o steps
    induction steps with
    | nil => rfl
    | cons p rest ih =>
        rw [generateStepsDeclarations, List.filterMap_cons]
        cases h : genStep o p with
        | none => rw [ih]
        | some e => rw [ih]

/-- Witness for C10's conditional clause: the generator drops a concrete
step whose normalized `fontSize` is the empty string and whose `step` is
undefined. -/
theorem c10_skip_witness :
    genStep
        { scale := mkRat 9 8, fontSize := 16, lineHeight := "1.5", pfx := "text",
          rounded := true, stepOffset := 0 }
        ("ghost", { fontSize := some "" })
      = none :=
  c10_generator_total_empty_fontSize_skipped.2.1
    { scale := mkRat 9 8, fontSize := 16, lineHeight := "1.5", pfx := "text",
      rounded := true, stepOffset := 0 }
    "ghost" { fontSize := some "" } rfl rfl

/-! ## Option-resolver characterization (support for C4) -/

/-- No option normalizer ever produces `undefined` (they reject with `null`),
which is what makes the resolver's `!== undefined` guard vacuous. -/
theorem optionsNormalizers_ne_undef (k : OptKey) (f : JSVal → JSVal) (v : JSVal)
    (hk : optionsNormalizers k = some f) : f v ≠ JSVal.undefined := by
  cases k with
  | scale =>
      injection hk with h
      subst h
      cases v <;> simp [normScale]
  | fontSize =>
      injection hk with h
      subst h
      cases v with
      | str s =>
          simp only [normFontSizeOpt]
          cases h : matchUnit (lowerTrimChars s.data) with
          | none => simp
          | some p =>
              obtain ⟨n, u⟩ := p
              by_cases hu : u = UnitSfx.rem ∨ u = UnitSfx.em
              · simp [hu]
              · simp [hu]
      | undefined => simp [normFontSizeOpt]
      | null => simp [normFontSizeOpt]
      | num q => simp [normFontSizeOpt]
      | bool b => simp [normFontSizeOpt]
  | lineHeight =>
      injection hk with h
      subst h
      cases v with
      | str s =>
          simp only [normLineHeightOpt]
          split <;> simp
      | undefined => simp [normLineHeightOpt]
      | null => simp [normLineHeightOpt]
      | num q => simp [normLineHeightOpt]
      | bool b => simp [normLineHeightOpt]
  | pfx =>
      injection hk with h
      subst h
      cases v <;> simp [normPfx]
  | rounded =>
      injection hk with h
      subst h
      cases v <;> simp [normRounded]
  | emit =>
      injection hk with h
      subst h
      cases v with
      | str s =>
          simp only [normEmit]
          split <;> simp
      | undefined => simp [normEmit]
      | null => simp [normEmit]
      | num q => simp [normEmit]
      | bool b => simp [normEmit]
  | preset => exact absurd hk (by simp [optionsNormalizers])

theorem normalizeOptionsGo_not_mem (o : RawOptions) :
    ∀ (ks : List OptKey) (acc : OptKey → Option JSVal) (sink : List String) (k : OptKey),
      k ∉ ks → (normalizeOptionsGo o ks acc sink).1 k = acc k := by
  intro ks
  induction ks with
  | nil => intro acc sink k _; rfl
  | cons k' ks ih =>
      intro acc sink k hk
      have hne : k ≠ k' := fun h => hk (h ▸ List.mem_cons_self k' ks)
      have hrest : k ∉ ks := fun h => hk (List.mem_cons_of_mem k' h)
      cases ho : o k' with
      | none =>
          simp only [normalizeOptionsGo, ho]
          exact ih acc sink k hrest
      | some v =>
          cases hn : optionsNormalizers k' with
          | none =>
              simp only [normalizeOptionsGo, ho, hn]
              exact ih acc _ k hrest
          | some f =>
              simp only [normalizeOptionsGo, ho, hn]
              by_cases hu : f v ≠ JSVal.undefined
              · rw [if_pos hu, ih _ _ k hrest]
                simp only [updateOpt, if_neg hne]
              · rw [if_neg hu]
                split <;> exact ih acc _ k hrest

theorem normalizeOptionsGo_mem (o : RawOptions) :
    ∀ (ks : List OptKey) (acc : OptKey → Option JSVal) (sink : List String) (k : OptKey),
      k ∈ ks → ks.Nodup →
      (normalizeOptionsGo o ks acc sink).1 k = resolveOne o k (acc k) := by
  intro ks
  induction ks with
  | nil => intro _ _ k hk; cases hk
  | cons k' ks ih =>
      intro acc sink k hk hnd
      rcases List.mem_cons.mp hk with heq | hmem
      · subst heq
        have hout : k ∉ ks := (List.nodup_cons.mp hnd).1
        cases ho : o k with
        | none =>
            simp only [normalizeOptionsGo, ho, resolveOne]
            exact normalizeOptionsGo_not_mem o ks acc sink k hout
        | some v =>
            cases hn : optionsNormalizers k with
            | none =>
                simp only [normalizeOptionsGo, ho, hn, resolveOne]
                exact normalizeOptionsGo_not_mem o ks acc _ k hout
            | some f =>
                simp only [normalizeOptionsGo, ho, hn, resolveOne]
                by_cases hu : f v ≠ JSVal.undefined
                · rw [if_pos hu, if_pos hu, normalizeOptionsGo_not_mem o ks _ sink k hout]
                  simp [updateOpt]
                · rw [if_neg hu, if_neg hu]
                  split <;> exact normalizeOptionsGo_not_mem o ks acc _ k hout
      · have hnd' : ks.Nodup := (List.nodup_cons.mp hnd).2
        have hne : k ≠ k' := by
          intro h
          exact (List.nodup_cons.mp hnd).1 (h ▸ hmem)
        cases ho : o k' with
        | none =>
            simp only [normalizeOptionsGo, ho]
            exact ih acc sink k hmem hnd'
        | some v =>
            cases hn : optionsNormalizers k' with
            | none =>
                simp only [normalizeOptionsGo, ho, hn]
                exact ih acc _ k hmem hnd'
            | some f =>
                simp only [normalizeOptionsGo, ho, hn]
                by_cases hu : f v ≠ JSVal.undefined
                · rw [if_pos hu, ih _ _ k hmem hnd']
                  simp only [updateOpt, if_neg hne]
                · rw [if_neg hu]
                  split <;> exact ih acc _ k hmem hnd'

/-- The bundle `normalizeOptions` returns, field by field: the normalized
present value (whatever it is — `null` included), else the default. -/
theorem normalizeOptions_apply (o : RawOptions) (sink : List String) (k : OptKey) :
    (normalizeOptions o sink).1 k
      = ((resolveOne o k none).getD (DEFAULT_OPTIONS k)) := by
  have hk : k ∈ optKeys := by cases k <;> decide
  have hnd : optKeys.Nodup := by decide
  show ((normalizeOptionsGo o optKeys (fun _ => none) sink).1 k).getD (DEFAULT_OPTIONS k)
      = (resolveOne o k none).getD (DEFAULT_OPTIONS k)
  rw [normalizeOptionsGo_mem o optKeys (fun _ => none) sink k hk hnd]

/-! ## Claim C4 -/

/-- Claim C4: for an option field recognized by the resolver, with sources
merged `{ ...jsOptions, ...cssOptions }`: a field present in the
document-level (CSS) source with an individually valid value resolves to
that (normalized) value — regardless of the programmatic one; a field
absent there falls through to the programmatic (JS) value; a field absent
from both falls through to the built-in static default. -/
theorem c4_option_precedence (js css : RawOptions) (sink : List String) (k : OptKey)
    (f : JSVal → JSVal) (hf : optionsNormalizers k = some f) :
    (∀ rawC, css k = some rawC → f rawC ≠ JSVal.null →
        (normalizeOptions (mergeRawOptions js css) sink).1 k = f rawC)
    ∧ (css k = none → ∀ rawJ, js k = some rawJ → f rawJ ≠ JSVal.null →
        (normalizeOptions (mergeRawOptions js css) sink).1 k = f rawJ)
    ∧ (css k = none → js k = none →
        (normalizeOptions (mergeRawOptions js css) sink).1 k = DEFAULT_OPTIONS k) := by
  refine ⟨?_, ?_, ?_⟩
  · intro rawC hc _
    rw [normalizeOptions_apply]
    have hm : mergeRawOptions js css k = some rawC := by
      simp [mergeRawOptions, hc]
    simp only [resolveOne, hm, hf]
    rw [if_pos (optionsNormalizers_ne_undef k f rawC hf)]
    rfl
  · intro hc rawJ hj _
    rw [normalizeOptions_apply]
    have hm : mergeRawOptions js css k = some rawJ := by
      simp [mergeRawOptions, hc, hj, Option.orElse]
    simp only [resolveOne, hm, hf]
    rw [if_pos (optionsNormalizers_ne_undef k f rawJ hf)]
    rfl
  · intro hc hj
    rw [normalizeOptions_apply]
    have hm : mergeRawOptions js css k = none := by
      simp [mergeRawOptions, hc, hj, Option.orElse]
    simp only [resolveOne, hm]
    rfl

/-- Witness for C4 at concrete sources: CSS `fontSize: "1.5rem"` beats JS
`fontSize: 20` (resolving to 24 px); JS-only `scale: 2` survives; `rounded`,
set in neither source, is the static default. -/
theorem c4_precedence_witness :
    (normalizeOptions
          (mergeRawOptions (rawOptionsOfList [(OptKey.fontSize, JSVal.num 20), (OptKey.scale, JSVal.num 2)])
            (rawOptionsOfList [(OptKey.fontSize, JSVal.str "1.5rem")])) []).1 OptKey.fontSize
      = JSVal.num 24
    ∧ (normalizeOptions
          (mergeRawOptions (rawOptionsOfList [(OptKey.fontSize, JSVal.num 20), (OptKey.scale, JSVal.num 2)])
            (rawOptionsOfList [(OptKey.fontSize, JSVal.str "1.5rem")])) []).1 OptKey.scale
      = JSVal.num 2
    ∧ (normalizeOptions
          (mergeRawOptions (rawOptionsOfList [(OptKey.fontSize, JSVal.num 20), (OptKey.scale, JSVal.num 2)])
            (rawOptionsOfList [(OptKey.fontSize, JSVal.str "1.5rem")])) []).1 OptKey.rounded
      = DEFAULT_OPTIONS OptKey.rounded := by
  refine ⟨?_, ?_, ?_⟩
  · rw [(c4_option_precedence _ _ [] OptKey.fontSize normFontSizeOpt rfl).1
      (JSVal.str "1.5rem") rfl (by decide)]
    decide
  · rw [(c4_option_precedence _ _ [] OptKey.scale normScale rfl).2.1 rfl
      (JSVal.num 2) rfl (by decide)]
    decide
  · exact (c4_option_precedence _ _ [] OptKey.rounded normRounded rfl).2.2 rfl rfl

/-! ## Step-map merge characterization (support for C5) -/

theorem lookupStep_append {α : Type} (l1 l2 : List (String × α)) (n : String) :
    lookupStep (l1 ++ l2) n = (lookupStep l1 n).orElse (fun _ => lookupStep l2 n) := by
  induction l1 with
  | nil => rfl
  | cons p t ih =>
      by_cases h : p.1 = n
      · simp [lookupStep, h, Option.orElse]
      · simp [lookupStep, h, ih]

theorem lookupStep_map_mergeRow (b : List (String × RawStep)) :
    ∀ (a : List (String × RawStep)) (n : String),
      lookupStep (a.map (fun p =>
          match lookupStep b p.1 with
          | some y => (p.1, mergeStepFields p.2 y)
          | none => p)) n
        = (lookupStep a n).map (fun x =>
            match lookupStep b n with
            | some y => mergeStepFields x y
            | none => x) := by
  intro a
  induction a with
  | nil => intro n; rfl
  | cons p t ih =>
      intro n
      by_cases h : p.1 = n
      · subst h
        cases hb : lookupStep b p.1 <;> simp [lookupStep, hb]
      · cases hb : lookupStep b p.1 <;> simp [lookupStep, hb, h, ih n]

theorem lookupStep_filter_not_in (a : List (String × RawStep)) :
    ∀ (b : List (String × RawStep)) (n : String),
      lookupStep (b.filter (fun p => (lookupStep a p.1).isNone)) n
        = if (lookupStep a n).isNone then lookupStep b n else none := by
  intro b
  induction b with
  | nil =>
      intro n
      split <;> rfl
  | cons p t ih =>
      intro n
      by_cases h : p.1 = n
      · subst h
        cases hp : (lookupStep a p.1).isNone <;> simp [List.filter_cons, hp, lookupStep, ih]
      · cases hp : (lookupStep a p.1).isNone <;> simp [List.filter_cons, hp, lookupStep, h, ih]

theorem lookupStep_mergeStepMaps (a b : List (String × RawStep)) (n : String) :
    lookupStep (mergeStepMaps a b) n
      = match lookupStep a n, lookupStep b n with
        | some x, some y => some (mergeStepFields x y)
        | some x, none => some x
        | none, _ => lookupStep b n := by
  rw [mergeStepMaps, lookupStep_append, lookupStep_map_mergeRow, lookupStep_filter_not_in]
  cases lookupStep a n <;> cases hb : lookupStep b n <;> simp [Option.orElse, hb]

/-! ## Claim C5 -/

/-- Claim C5: for a step name present in two sources, `deepMerge` resolves
that name field-by-field: every field the higher-precedence source carries
wins, and every field it lacks is preserved from the lower-precedence
source — so disjoint field sets merge to their union, and overlap is decided
per field, not per record. -/
theorem c5_step_field_merge (a b : List (String × RawStep)) (n : String) (x y : RawStep)
    (ha : lookupStep a n = some x) (hb : lookupStep b n = some y) :
    ∃ m, lookupStep (mergeStepMaps a b) n = some m
      ∧ (∀ k, (y k).isSome → m k = y k)
      ∧ (∀ k, y k = none → m k = x k) := by
  refine ⟨mergeStepFields x y, ?_, ?_, ?_⟩
  · rw [lookupStep_mergeStepMaps, ha, hb]
  · intro k hk
    cases hy : y k with
    | none => rw [hy] at hk; cases hk
    | some v => simp [mergeStepFields, hy, Option.orElse]
  · intro k hk
    simp [mergeStepFields, hk, Option.orElse]

/-- Witness for C5: merging `{sm: {step: -1, lineHeight: "1.4"}}` under
`{sm: {letterSpacing: "0.01em", lineHeight: "1.6"}}` keeps the
lower-precedence `step`, takes the overlapping `lineHeight` from the
higher-precedence source, and adds its `letterSpacing`. -/
theorem c5_merge_witness :
    ∃ m, lookupStep (mergeStepMaps
          [("sm", rawStepOfList [(StepKey.step, JSVal.num (-1)), (StepKey.lineHeight, JSVal.str "1.4")])]
          [("sm", rawStepOfList [(StepKey.letterSpacing, JSVal.str "0.01em"),
                                 (StepKey.lineHeight, JSVal.str "1.6")])]) "sm"
        = some m
      ∧ m StepKey.step = some (JSVal.num (-1))
      ∧ m StepKey.lineHeight = some (JSVal.str "1.6")
      ∧ m StepKey.letterSpacing = some (JSVal.str "0.01em") := by
  obtain ⟨m, hm, h1, h2⟩ := c5_step_field_merge
    [("sm", rawStepOfList [(StepKey.step, JSVal.num (-1)), (StepKey.lineHeight, JSVal.str "1.4")])]
    [("sm", rawStepOfList [(StepKey.letterSpacing, JSVal.str "0.01em"),
                           (StepKey.lineHeight, JSVal.str "1.6")])]
    "sm" _ _ rfl rfl
  refine ⟨m, hm, ?_, ?_, ?_⟩
  · rw [h2 StepKey.step (by decide)]
    decide
  · rw [h1 StepKey.lineHeight (by decide)]
    decide
  · rw [h1 StepKey.letterSpacing (by decide)]
    decide

/-! ## Sink-framing lemmas (support for C9): every engine function only
appends to the diagnostics sink, and its result does not depend on the
sink's prior contents. -/

theorem normalizeOptionsGo_sink (o : RawOptions) :
    ∀ (ks : List OptKey) (acc : OptKey → Option JSVal) (sink : List String),
      normalizeOptionsGo o ks acc sink
        = ((normalizeOptionsGo o ks acc []).1, sink ++ (normalizeOptionsGo o ks acc []).2) := by
  intro ks
  induction ks with
  | nil => intro acc sink; simp [normalizeOptionsGo]
  | cons k ks ih =>
      intro acc sink
      cases ho : o k with
      | none =>
          simp only [normalizeOptionsGo, ho]
          exact ih acc sink
      | some v =>
          cases hn : optionsNormalizers k with
          | none =>
              simp only [normalizeOptionsGo, ho, hn]
              rw [ih acc (sink ++ [unknownOptMsg k]), ih acc ([] ++ [unknownOptMsg k])]
              simp
          | some f =>
              simp only [normalizeOptionsGo, ho, hn]
              by_cases hu : f v ≠ JSVal.undefined
              · rw [if_pos hu, if_pos hu]
                exact ih _ sink
              · rw [if_neg hu, if_neg hu]
                split
                · rw [ih acc (sink ++ [invalidDefaultMsg k v]), ih acc ([] ++ [invalidDefaultMsg k v])]
                  simp
                · rw [ih acc (sink ++ [invalidSkipMsg k v]), ih acc ([] ++ [invalidSkipMsg k v])]
                  simp

theorem normalizeOneStep_sink (name : String) (cfg : RawStep) :
    ∀ (ks : List StepKey) (t : NStep) (sink : List String),
      normalizeOneStep name cfg ks t sink
        = ((normalizeOneStep name cfg ks t []).1, sink ++ (normalizeOneStep name cfg ks t []).2) := by
  intro ks
  induction ks with
  | nil => intro t sink; simp [normalizeOneStep]
  | cons k ks ih =>
      intro t sink
      cases hc : cfg k with
      | none =>
          simp only [normalizeOneStep, hc]
          exact ih t sink
      | some v =>
          simp only [normalizeOneStep, hc]
          by_cases hn : normStepField k v = JSVal.null
          · rw [if_pos hn, if_pos hn]
            rw [ih t (sink ++ [invalidStepFieldMsg k v name]), ih t ([] ++ [invalidStepFieldMsg k v name])]
            simp
          · rw [if_neg hn, if_neg hn]
            exact ih _ sink

theorem processStep_sink (p : String × RawStep) (sink : List String) :
    processStep p sink = ((processStep p []).1, sink ++ (processStep p []).2) := by
  simp only [processStep]
  rw [normalizeOneStep_sink p.1 p.2 stepKeys {} sink]
  by_cases hc : (normalizeOneStep p.1 p.2 stepKeys {} []).1.step = none
      ∧ (normalizeOneStep p.1 p.2 stepKeys {} []).1.fontSize = none
  · rw [if_pos hc, if_pos hc]
    simp
  · rw [if_neg hc, if_neg hc]

theorem normalizeTypeStepsGo_sink :
    ∀ (steps : List (String × RawStep)) (sink : List String),
      normalizeTypeStepsGo steps sink
        = ((normalizeTypeStepsGo steps []).1, sink ++ (normalizeTypeStepsGo steps []).2) := by
  intro steps
  induction steps with
  | nil => intro sink; simp [normalizeTypeStepsGo]
  | cons p rest ih =>
      intro sink
      simp only [normalizeTypeStepsGo]
      rw [processStep_sink p sink, processStep_sink p []]
      cases hp : (processStep p []).1 with
      | none =>
          simp only
          rw [ih (sink ++ ([] ++ (processStep p []).2)), ih ([] ++ (processStep p []).2)]
          simp
      | some e =>
          simp only
          rw [ih (sink ++ ([] ++ (processStep p []).2)), ih ([] ++ (processStep p []).2)]
          simp

theorem normalizeTypeSteps_sink_fst (steps : List (String × RawStep)) (sink : List String) :
    (normalizeTypeSteps steps sink).1 = (normalizeTypeSteps steps []).1 := by
  simp only [normalizeTypeSteps]
  rw [normalizeTypeStepsGo_sink steps sink]

theorem normalizeTypeSteps_sink_snd (steps : List (String × RawStep)) (sink : List String) :
    (normalizeTypeSteps steps sink).2 = sink ++ (normalizeTypeSteps steps []).2 := by
  simp only [normalizeTypeSteps]
  rw [normalizeTypeStepsGo_sink steps sink]

theorem normalizeOptions_sink_fst (o : RawOptions) (sink : List String) :
    (normalizeOptions o sink).1 = (normalizeOptions o []).1 := by
  simp only [normalizeOptions]
  rw [normalizeOptionsGo_sink o optKeys (fun _ => none) sink]

theorem normalizeOptions_sink_snd (o : RawOptions) (sink : List String) :
    (normalizeOptions o sink).2 = sink ++ (normalizeOptions o []).2 := by
  simp only [normalizeOptions]
  rw [normalizeOptionsGo_sink o optKeys (fun _ => none) sink]

/-! ## Claim C9 -/

/-- Claim C9: a resolution-and-generation pass is a pure function of its
input sources and only appends to the diagnostics sink: its output map never
depends on the sink's prior contents, and the final sink is the prior
contents followed by a diagnostics sequence that depends only on the input.
Hence two passes over identical input sources from the same initial sink
state produce identical output maps and identical diagnostics sequences,
and only the caller ever clears the log. -/
theorem c9_pipeline_deterministic_append_only (inp : PipelineInput) (s0 : List String) :
    (runPipeline inp s0).1 = (runPipeline inp []).1
    ∧ (runPipeline inp s0).2 = s0 ++ (runPipeline inp []).2
    ∧ runPipeline inp s0
        = ((runPipeline inp []).1, s0 ++ (runPipeline inp []).2) := by
  have h1 : (runPipeline inp s0).1 = (runPipeline inp []).1 := by
    simp only [runPipeline]
    rw [normalizeOptions_sink_fst _ s0, normalizeOptions_sink_snd _ s0,
      normalizeTypeSteps_sink_fst _ (s0 ++ (normalizeOptions (mergeRawOptions inp.jsOptions inp.cssOptions) []).2),
      normalizeTypeSteps_sink_fst _ (normalizeOptions (mergeRawOptions inp.jsOptions inp.cssOptions) []).2]
  have h2 : (runPipeline inp s0).2 = s0 ++ (runPipeline inp []).2 := by
    simp only [runPipeline]
    rw [normalizeOptions_sink_fst _ s0, normalizeOptions_sink_snd _ s0,
      normalizeTypeSteps_sink_snd _ (s0 ++ (normalizeOptions (mergeRawOptions inp.jsOptions inp.cssOptions) []).2),
      normalizeTypeSteps_sink_snd _ (normalizeOptions (mergeRawOptions inp.jsOptions inp.cssOptions) []).2]
    simp
  exact ⟨h1, h2, Prod.ext h1 h2⟩

/-! ## Step-drop lemmas (support for C3) -/

theorem setNStepField_step_of_ne (t : NStep) (k : StepKey) (v : JSVal)
    (hk : k ≠ StepKey.step) : (setNStepField t k v).step = t.step := by
  cases k with
  | step => exact absurd rfl hk
  | fontSize => cases v <;> rfl
  | lineHeight => cases v <;> rfl
  | letterSpacing => cases v <;> rfl

theorem setNStepField_fontSize_of_ne (t : NStep) (k : StepKey) (v : JSVal)
    (hk : k ≠ StepKey.fontSize) : (setNStepField t k v).fontSize = t.fontSize := by
  cases k with
  | step => cases v <;> rfl
  | fontSize => exact absurd rfl hk
  | lineHeight => cases v <;> rfl
  | letterSpacing => cases v <;> rfl

theorem normalizeOneStep_clean_incomplete (name : String) (cfg : RawStep)
    (hclean : ∀ k v, cfg k = some v → normStepField k v ≠ JSVal.null)
    (hs : cfg StepKey.step = none) (hf : cfg StepKey.fontSize = none) :
    ∀ (ks : List StepKey) (t : NStep) (sink : List String),
      t.step = none → t.fontSize = none →
      (normalizeOneStep name cfg ks t sink).1.step = none
      ∧ (normalizeOneStep name cfg ks t sink).1.fontSize = none
      ∧ (normalizeOneStep name cfg ks t sink).2 = sink := by
  intro ks
  induction ks with
  | nil => intro t sink ht hft; exact ⟨ht, hft, rfl⟩
  | cons k ks ih =>
      intro t sink ht hft
      cases hc : cfg k with
      | none =>
          simp only [normalizeOneStep, hc]
          exact ih t sink ht hft
      | some v =>
          have hnn := hclean k v hc
          have hkne_s : k ≠ StepKey.step := by
            rintro rfl; rw [hs] at hc; cases hc
          have hkne_f : k ≠ StepKey.fontSize := by
            rintro rfl; rw [hf] at hc; cases hc
          simp only [normalizeOneStep, hc]
          rw [if_neg hnn]
          exact ih _ sink
            (by rw [setNStepField_step_of_ne t k _ hkne_s]; exact ht)
            (by rw [setNStepField_fontSize_of_ne t k _ hkne_f]; exact hft)

theorem processStep_clean_incomplete (name : String) (cfg : RawStep)
    (hclean : ∀ k v, cfg k = some v → normStepField k v ≠ JSVal.null)
    (hs : cfg StepKey.step = none) (hf : cfg StepKey.fontSize = none)
    (sink : List String) :
    processStep (name, cfg) sink = (none, sink ++ [invalidConfigMsg name]) := by
  obtain ⟨h1, h2, h3⟩ :=
    normalizeOneStep_clean_incomplete name cfg hclean hs hf stepKeys {} sink rfl rfl
  simp only [processStep]
  rw [if_pos ⟨h1, h2⟩, h3]

theorem processStep_key (p : String × RawStep) (sink : List String) (e : String × NStep)
    (h : (processStep p sink).1 = some e) : e.1 = p.1 := by
  simp only [processStep] at h
  split at h
  · cases h
  · injection h with h'
    rw [← h']

theorem normalizeTypeStepsGo_lookup_clean (name : String) :
    ∀ (steps : List (String × RawStep)) (sink : List String),
      (∀ c, (name, c) ∈ steps →
        (∀ k v, c k = some v → normStepField k v ≠ JSVal.null)
        ∧ c StepKey.step = none ∧ c StepKey.fontSize = none) →
      lookupStep (normalizeTypeStepsGo steps sink).1 name = none := by
  intro steps
  induction steps with
  | nil => intro sink _; rfl
  | cons p rest ih =>
      intro sink hall
      have hall' : ∀ c, (name, c) ∈ rest →
          (∀ k v, c k = some v → normStepField k v ≠ JSVal.null)
          ∧ c StepKey.step = none ∧ c StepKey.fontSize = none :=
        fun c hc => hall c (List.mem_cons_of_mem p hc)
      by_cases hp : p.1 = name
      · have hmem : (name, p.2) ∈ p :: rest := by
          rw [show (name, p.2) = p from by rw [← hp]]
          exact List.mem_cons_self p rest
        obtain ⟨hcl, hs, hf⟩ := hall p.2 hmem
        have hps : processStep p sink = (none, sink ++ [invalidConfigMsg p.1]) := by
          rw [show p = (p.1, p.2) from rfl]
          exact processStep_clean_incomplete p.1 p.2 hcl hs hf sink
        rw [normalizeTypeStepsGo]
        rw [hps]
        exact ih _ hall'
      · rw [normalizeTypeStepsGo]
        cases he : (processStep p sink).1 with
        | none => exact ih _ hall'
        | some e =>
            have hkey : e.1 = p.1 := processStep_key p sink e he
            simp only
            rw [lookupStep, if_neg (by rw [hkey]; exact hp)]
            exact ih _ hall'

theorem genStep_key (o : Bundle) (p : String × NStep) (e : String × OutputEntry)
    (h : genStep o p = some e) : e.1 = p.1 := by
  simp only [genStep] at h
  split at h
  · cases h
  · split at h
    · cases h
    · injection h with h'
      rw [← h']

theorem lookupStep_generate_none (o : Bundle) :
    ∀ (steps : List (String × NStep)) (name : String),
      lookupStep steps name = none →
      lookupStep (generateStepsDeclarations o steps) name = none := by
  intro steps
  induction steps with
  | nil => intro name _; rfl
  | cons p rest ih =>
      intro name h
      have hne : ¬(p.1 = name) := by
        intro hh
        rw [lookupStep, if_pos hh] at h
        cases h
      have hrest : lookupStep rest name = none := by
        rw [lookupStep, if_neg hne] at h
        exact h
      rw [generateStepsDeclarations]
      cases hg : genStep o p with
      | none => exact ih name hrest
      | some e =>
          rw [lookupStep, if_neg (by rw [genStep_key o p e hg]; exact hne)]
          exact ih name hrest

/-! ## Claim C3 -/

/-- Claim C3 counterexample: when the structurally incomplete step is the
only configured step, its rejection empties the map, the resolver falls back
to `DEFAULT_STEPS` — and the dropped name "sm" reappears in the final output
map (with the default definition).  The diagnostic part does hold: exactly
one message, naming the step. -/
theorem c3_dropped_step_name_reappears :
    (lookupStep (runPipeline c3Input []).1 "sm").isSome = true
    ∧ (runPipeline c3Input []).2 = [invalidConfigMsg "sm"] :=
  ⟨by decide, by decide⟩

/-- Claim C3 as amended: a step whose fields all normalize cleanly but which
lacks both `step` and `fontSize` is dropped, its rejection appending exactly
the one diagnostic that names it; the dropped name never appears in the
normalized step map, and — provided at least one other step survives, so the
default-step fallback is not triggered — never appears in the final output
map either. -/
theorem c3_incomplete_step_dropped :
    (∀ (name : String) (cfg : RawStep),
        (∀ k v, cfg k = some v → normStepField k v ≠ JSVal.null) →
        cfg StepKey.step = none → cfg StepKey.fontSize = none →
        ∀ sink, processStep (name, cfg) sink = (none, sink ++ [invalidConfigMsg name]))
    ∧ (∀ (name : String) (steps : List (String × RawStep)) (sink : List String),
        (∀ c, (name, c) ∈ steps →
          (∀ k v, c k = some v → normStepField k v ≠ JSVal.null)
          ∧ c StepKey.step = none ∧ c StepKey.fontSize = none) →
        lookupStep (normalizeTypeStepsGo steps sink).1 name = none
        ∧ ((normalizeTypeStepsGo steps sink).1 ≠ [] →
            ∀ o : Bundle,
              lookupStep (generateStepsDeclarations o (normalizeTypeSteps steps sink).1) name
                = none)) := by
  constructor
  · intro name cfg hclean hs hf sink
    exact processStep_clean_incomplete name cfg hclean hs hf sink
  · intro name steps sink hall
    have hnone := normalizeTypeStepsGo_lookup_clean name steps sink hall
    refine ⟨hnone, fun hne o => ?_⟩
    have hmap : (normalizeTypeSteps steps sink).1 = (normalizeTypeStepsGo steps sink).1 := by
      simp only [normalizeTypeSteps]
      rw [if_neg (by simpa [List.isEmpty_iff] using hne)]
    rw [hmap]
    exact lookupStep_generate_none o _ name hnone

/-- Witness for C3's amended theorem: the incomplete "sm" step is dropped
with exactly its one diagnostic, and with a surviving "base" step the final
output map has no "sm" entry. -/
theorem c3_incomplete_step_dropped_witness :
    processStep ("sm", c3Cfg) [] = (none, [invalidConfigMsg "sm"])
    ∧ lookupStep
        (generateStepsDeclarations
          { scale := mkRat 9 8, fontSize := 16, lineHeight := "1.5", pfx := "text",
            rounded := true, stepOffset := 0 }
          (normalizeTypeSteps [("sm", c3Cfg),
            ("base", rawStepOfList [(StepKey.step, JSVal.num 0)])] []).1) "sm"
      = none := by
  have hclean : ∀ k v, c3Cfg k = some v → normStepField k v ≠ JSVal.null := by
    intro k v hkv
    cases k with
    | step => simp [c3Cfg] at hkv
    | fontSize => simp [c3Cfg] at hkv
    | lineHeight =>
        simp only [c3Cfg] at hkv
        injection hkv with h
        subst h
        decide
    | letterSpacing =>
        simp only [c3Cfg] at hkv
        injection hkv with h
        subst h
        decide
  constructor
  · exact c3_incomplete_step_dropped.1 "sm" c3Cfg hclean rfl rfl []
  · refine (c3_incomplete_step_dropped.2 "sm"
      [("sm", c3Cfg), ("base", rawStepOfList [(StepKey.step, JSVal.num 0)])] [] ?_).2
      (by decide) _
    intro c hc
    rcases List.mem_cons.mp hc with heq | hmem
    · have hc2 : c = c3Cfg := congrArg Prod.snd heq
      subst hc2
      exact ⟨hclean, rfl, rfl⟩
    · rcases List.mem_cons.mp hmem with heq2 | hnil
      · have hss : "sm" = "base" := congrArg Prod.fst heq2
        exact absurd hss (by decide)
      · cases hnil

/-! ## Character and parsing lemmas (support for C8) -/

theorem digit_not_ws {c : Char} (h : isDigitCh c = true) : isWsChar c = false := by
  simp only [isDigitCh, Bool.and_eq_true, decide_eq_true_eq] at h
  simp only [isWsChar, Bool.or_eq_false_iff, decide_eq_false_iff_not]
  omega

theorem digit_lower_fix {c : Char} (h : isDigitCh c = true) : lowerChar c = c := by
  simp only [isDigitCh, Bool.and_eq_true, decide_eq_true_eq] at h
  rw [lowerChar, if_neg]
  simp only [Bool.and_eq_true, decide_eq_true_eq, not_and]
  omega

theorem dropWhile_all_false {p : Char → Bool} :
    ∀ {cs : List Char}, (∀ c ∈ cs, p c = false) → cs.dropWhile p = cs := by
  intro cs h
  cases cs with
  | nil => rfl
  | cons c t =>
      rw [List.dropWhile_cons, h c (List.mem_cons_self c t)]
      simp

theorem trimChars_id {cs : List Char} (h : ∀ c ∈ cs, isWsChar c = false) :
    trimChars cs = cs := by
  rw [trimChars, dropWhile_all_false h,
    dropWhile_all_false (fun c hc => h c (List.mem_reverse.mp hc)), List.reverse_reverse]

theorem lowerTrimChars_id {cs : List Char} (hws : ∀ c ∈ cs, isWsChar c = false)
    (hlc : ∀ c ∈ cs, lowerChar c = c) : lowerTrimChars cs = cs := by
  rw [lowerTrimChars, trimChars_id hws]
  calc cs.map lowerChar = cs.map id := List.map_congr_left hlc
    _ = cs := cs.map_id

theorem remFront_pre : ∀ (p r : List Char), remFront p (p ++ r) = some r := by
  intro p
  induction p with
  | nil => intro r; rfl
  | cons a as ih =>
      intro r
      rw [List.cons_append, remFront, if_pos rfl]
      exact ih r

theorem remFront_sound : ∀ (p l r : List Char), remFront p l = some r → l = p ++ r := by
  intro p
  induction p with
  | nil =>
      intro l r h
      exact Option.some.inj h
  | cons a as ih =>
      intro l r h
      cases l with
      | nil => cases h
      | cons c cs =>
          rw [remFront] at h
          by_cases hac : a = c
          · rw [if_pos hac] at h
            rw [List.cons_append, ← ih cs r h, hac]
          · rw [if_neg hac] at h
            cases h

theorem stripSfx_of_append (sfx pre : List Char) : stripSfx sfx (pre ++ sfx) = some pre := by
  rw [stripSfx, List.reverse_append, remFront_pre]
  simp

theorem stripSfx_sound (sfx cs pre : List Char) (h : stripSfx sfx cs = some pre) :
    cs = pre ++ sfx := by
  rw [stripSfx] at h
  cases hr : remFront sfx.reverse cs.reverse with
  | none => rw [hr] at h; cases h
  | some r =>
      rw [hr] at h
      injection h with h'
      have h2 : cs.reverse = sfx.reverse ++ r := remFront_sound _ _ _ hr
      have h3 : cs = r.reverse ++ sfx := by
        rw [← cs.reverse_reverse, h2]
        simp
      rw [h3, h']

theorem numeralShape_last_digit {pre : List Char} (h : NumeralShape pre) :
    ∃ d t, pre.reverse = d :: t ∧ isDigitCh d = true := by
  rcases h with ⟨hne, hall⟩ | ⟨a, b, heq, _, hbne, hball⟩
  · rcases pre.eq_nil_or_concat with rfl | ⟨t, d, rfl⟩
    · exact absurd rfl hne
    · exact ⟨d, t.reverse, by simp, hall d (by simp)⟩
  · rcases b.eq_nil_or_concat with rfl | ⟨t, d, rfl⟩
    · exact absurd rfl hbne
    · refine ⟨d, (a ++ '.' :: t).reverse, ?_, hball d (by simp)⟩
      rw [heq]
      simp

theorem stripUnitSfx_canonical {pre : List Char} (u : UnitSfx) (h : NumeralShape pre) :
    stripUnitSfx (pre ++ unitChars u) = (pre, u) := by
  obtain ⟨d, t, hrev, hd⟩ := numeralShape_last_digit h
  have hdr : ('r' : Char) ≠ d := fun hh => absurd (hh ▸ hd) (by decide)
  have hdm : ('m' : Char) ≠ d := fun hh => absurd (hh ▸ hd) (by decide)
  have hdx : ('x' : Char) ≠ d := fun hh => absurd (hh ▸ hd) (by decide)
  cases u with
  | rem =>
      rw [stripUnitSfx, show stripSfx (unitChars .rem) (pre ++ unitChars .rem) = some pre
        from stripSfx_of_append _ _]
  | em =>
      have h1 : stripSfx (unitChars .rem) (pre ++ unitChars .em) = none := by
        rw [stripSfx, show (pre ++ unitChars .em).reverse = 'm' :: 'e' :: pre.reverse from by
          simp [unitChars]]
        rw [show (unitChars UnitSfx.rem).reverse = ['m', 'e', 'r'] from rfl]
        rw [remFront, if_pos rfl, remFront, if_pos rfl, hrev, remFront, if_neg hdr]
        rfl
      rw [stripUnitSfx, h1, show stripSfx (unitChars .em) (pre ++ unitChars .em) = some pre
        from stripSfx_of_append _ _]
  | px =>
      have h1 : stripSfx (unitChars .rem) (pre ++ unitChars .px) = none := by
        rw [stripSfx, show (pre ++ unitChars .px).reverse = 'x' :: 'p' :: pre.reverse from by
          simp [unitChars]]
        rw [show (unitChars UnitSfx.rem).reverse = ['m', 'e', 'r'] from rfl]
        rw [remFront, if_neg (by decide)]
        rfl
      have h2 : stripSfx (unitChars .em) (pre ++ unitChars .px) = none := by
        rw [stripSfx, show (pre ++ unitChars .px).reverse = 'x' :: 'p' :: pre.reverse from by
          simp [unitChars]]
        rw [show (unitChars UnitSfx.em).reverse = ['m', 'e'] from rfl]
        rw [remFront, if_neg (by decide)]
        rfl
      rw [stripUnitSfx, h1, h2, show stripSfx (unitChars .px) (pre ++ unitChars .px) = some pre
        from stripSfx_of_append _ _]
  | noUnit =>
      have hpre : pre ++ unitChars .noUnit = pre := by simp [unitChars]
      have h1 : stripSfx (unitChars .rem) pre = none := by
        rw [stripSfx, hrev, show (unitChars UnitSfx.rem).reverse = ['m', 'e', 'r'] from rfl,
          remFront, if_neg hdm]
        rfl
      have h2 : stripSfx (unitChars .em) pre = none := by
        rw [stripSfx, hrev, show (unitChars UnitSfx.em).reverse = ['m', 'e'] from rfl,
          remFront, if_neg hdm]
        rfl
      have h3 : stripSfx (unitChars .px) pre = none := by
        rw [stripSfx, hrev, show (unitChars UnitSfx.px).reverse = ['x', 'p'] from rfl,
          remFront, if_neg hdx]
        rfl
      rw [hpre, stripUnitSfx, h1, h2, h3]

theorem takeWhile_all_true {p : Char → Bool} :
    ∀ {cs : List Char}, (∀ c ∈ cs, p c = true) →
      cs.takeWhile p = cs ∧ cs.dropWhile p = [] := by
  intro cs
  induction cs with
  | nil => intro _; exact ⟨rfl, rfl⟩
  | cons c t ih =>
      intro h
      have hc := h c (List.mem_cons_self c t)
      have ht := ih (fun x hx => h x (List.mem_cons_of_mem c hx))
      rw [List.takeWhile_cons, List.dropWhile_cons, hc]
      simp [ht.1, ht.2]

theorem takeWhile_append_stop {p : Char → Bool} (r : Char) (rest : List Char)
    (hr : p r = false) :
    ∀ (a : List Char), (∀ c ∈ a, p c = true) →
      (a ++ r :: rest).takeWhile p = a ∧ (a ++ r :: rest).dropWhile p = r :: rest := by
  intro a
  induction a with
  | nil =>
      intro _
      rw [List.nil_append, List.takeWhile_cons, List.dropWhile_cons, hr]
      simp
  | cons c t ih =>
      intro h
      have hc := h c (List.mem_cons_self c t)
      have ht := ih (fun x hx => h x (List.mem_cons_of_mem c hx))
      rw [List.cons_append, List.takeWhile_cons, List.dropWhile_cons, hc]
      simp [ht.1, ht.2]

theorem parseNumeral_int {a : List Char} (hne : a ≠ []) (hall : ∀ c ∈ a, isDigitCh c = true) :
    parseNumeral a = some (digitsToNat a : ℚ) := by
  obtain ⟨htw, hdw⟩ := takeWhile_all_true hall
  rw [parseNumeral, hdw]
  simp only [htw]
  rw [if_neg (by simpa [List.isEmpty_iff] using hne)]

theorem parseNumeral_frac {a b : List Char} (hall : ∀ c ∈ a, isDigitCh c = true)
    (hbne : b ≠ []) (hball : ∀ c ∈ b, isDigitCh c = true) :
    parseNumeral (a ++ '.' :: b)
      = some (qAdd (digitsToNat a : ℚ) (qDiv (digitsToNat b : ℚ) (ratNpow 10 b.length))) := by
  obtain ⟨htw, hdw⟩ := takeWhile_append_stop '.' b (by decide) a hall
  have h1 : b.isEmpty = false := by simpa [List.isEmpty_iff] using hbne
  have h2 : b.all isDigitCh = true := List.all_eq_true.mpr fun c hc => hball c hc
  rw [parseNumeral, hdw]
  simp only [htw]
  split
  · rfl
  · rename_i hcond
    exact absurd (by simp [h1, h2]) hcond

theorem parseNumeral_sound {cs : List Char} {n : ℚ} (h : parseNumeral cs = some n) :
    NumeralShape cs := by
  simp only [parseNumeral] at h
  split at h
  · rename_i heq
    split at h
    · cases h
    · rename_i hie
      left
      constructor
      · intro hnil
        rw [hnil] at hie
        exact hie rfl
      · intro c hc
        have : cs.takeWhile isDigitCh = cs := by
          conv_rhs => rw [← List.takeWhile_append_dropWhile (p := isDigitCh) (l := cs), heq]
          simp
        exact List.mem_takeWhile_imp (this ▸ hc)
  · rename_i c frac heq
    split at h
    · rename_i hcond
      rw [Bool.and_eq_true, Bool.and_eq_true] at hcond
      have hdot : c = '.' := of_decide_eq_true hcond.1.1
      have hfne : frac ≠ [] := by
        intro hnil
        subst hnil
        simp at hcond
      have hall2 : ∀ x ∈ frac, isDigitCh x = true := by
        intro x hx
        have := List.all_eq_true.mp hcond.2 x hx
        simpa using this
      right
      refine ⟨cs.takeWhile isDigitCh, frac, ?_, fun x hx => List.mem_takeWhile_imp hx,
        hfne, hall2⟩
      conv_lhs => rw [← List.takeWhile_append_dropWhile (p := isDigitCh) (l := cs), heq]
      rw [hdot]
    · cases h

theorem stripUnitSfx_sound (cs : List Char) :
    cs = (stripUnitSfx cs).1 ++ unitChars (stripUnitSfx cs).2 := by
  rw [stripUnitSfx]
  cases h1 : stripSfx (unitChars .rem) cs with
  | some pre => simpa using stripSfx_sound _ _ _ h1
  | none =>
      cases h2 : stripSfx (unitChars .em) cs with
      | some pre => simpa using stripSfx_sound _ _ _ h2
      | none =>
          cases h3 : stripSfx (unitChars .px) cs with
          | some pre => simpa using stripSfx_sound _ _ _ h3
          | none => simp [unitChars]

theorem matchUnit_sound {cs : List Char} {n : ℚ} {u : UnitSfx}
    (h : matchUnit cs = some (n, u)) : UnitShape cs := by
  rw [matchUnit] at h
  cases hp : parseNumeral (stripUnitSfx cs).1 with
  | none => rw [hp] at h; cases h
  | some m =>
      exact ⟨(stripUnitSfx cs).1, (stripUnitSfx cs).2, stripUnitSfx_sound cs,
        parseNumeral_sound hp⟩

theorem unitChars_tame (u : UnitSfx) :
    ∀ c ∈ unitChars u, isWsChar c = false ∧ lowerChar c = c := by
  cases u with
  | noUnit => intro c hc; simp [unitChars] at hc
  | px =>
      intro c hc
      simp [unitChars] at hc
      rcases hc with rfl | rfl <;> exact ⟨by decide, by decide⟩
  | em =>
      intro c hc
      simp [unitChars] at hc
      rcases hc with rfl | rfl <;> exact ⟨by decide, by decide⟩
  | rem =>
      intro c hc
      simp [unitChars] at hc
      rcases hc with rfl | rfl | rfl <;> exact ⟨by decide, by decide⟩

theorem matchUnit_int {a : List Char} (u : UnitSfx) (hne : a ≠ [])
    (hall : ∀ c ∈ a, isDigitCh c = true) :
    matchUnit (a ++ unitChars u) = some ((digitsToNat a : ℚ), u) := by
  have hshape : NumeralShape a := Or.inl ⟨hne, hall⟩
  rw [matchUnit, stripUnitSfx_canonical u hshape]
  simp [parseNumeral_int hne hall]

theorem matchUnit_frac {a b : List Char} (u : UnitSfx) (hall : ∀ c ∈ a, isDigitCh c = true)
    (hbne : b ≠ []) (hball : ∀ c ∈ b, isDigitCh c = true) :
    matchUnit ((a ++ '.' :: b) ++ unitChars u)
      = some (qAdd (digitsToNat a : ℚ) (qDiv (digitsToNat b : ℚ) (ratNpow 10 b.length)), u) := by
  have hshape : NumeralShape (a ++ '.' :: b) := Or.inr ⟨a, b, rfl, hall, hbne, hball⟩
  rw [matchUnit, stripUnitSfx_canonical u hshape]
  simp [parseNumeral_frac hall hbne hball]

/-! ## Claim C8 -/

/-- Claim C8: the plugin-level `fontSize` normalizer accepts a number
unchanged; a digit string (integer or decimal) with no unit or with `px`
resolves to that number of pixels, and with `em` or `rem` to the number
multiplied by `BASE_FONT_SIZE` (16); every string not of
numeral-plus-recognized-unit shape is rejected (`null`), as is every
non-number non-string value. -/
theorem c8_fontSize_option_normalizer :
    (∀ q : ℚ, normFontSizeOpt (JSVal.num q) = JSVal.num q)
    ∧ (∀ (a : List Char) (u : UnitSfx), a ≠ [] → (∀ c ∈ a, isDigitCh c = true) →
        normFontSizeOpt (JSVal.str (String.mk (a ++ unitChars u)))
          = JSVal.num ((digitsToNat a : ℚ) * unitFactor u))
    ∧ (∀ (a b : List Char) (u : UnitSfx), (∀ c ∈ a, isDigitCh c = true) → b ≠ [] →
        (∀ c ∈ b, isDigitCh c = true) →
        normFontSizeOpt (JSVal.str (String.mk (a ++ '.' :: (b ++ unitChars u))))
          = JSVal.num (((digitsToNat a : ℚ) + (digitsToNat b : ℚ) / 10 ^ b.length) * unitFactor u))
    ∧ (∀ s : String, ¬ UnitShape (lowerTrimChars s.data) →
        normFontSizeOpt (JSVal.str s) = JSVal.null)
    ∧ normFontSizeOpt JSVal.undefined = JSVal.null
    ∧ normFontSizeOpt JSVal.null = JSVal.null
    ∧ (∀ b : Bool, normFontSizeOpt (JSVal.bool b) = JSVal.null) := by
  refine ⟨fun q => rfl, ?_, ?_, ?_, rfl, rfl, fun b => rfl⟩
  · intro a u hne hall
    have hcan : lowerTrimChars (a ++ unitChars u) = a ++ unitChars u := by
      refine lowerTrimChars_id (fun c hc => ?_) (fun c hc => ?_) <;>
        rcases List.mem_append.mp hc with hca | hcu
      · exact digit_not_ws (hall c hca)
      · exact (unitChars_tame u c hcu).1
      · exact digit_lower_fix (hall c hca)
      · exact (unitChars_tame u c hcu).2
    show (match matchUnit (lowerTrimChars (a ++ unitChars u)) with
      | none => JSVal.null
      | some (n, u') =>
          if u' = UnitSfx.rem || u' = UnitSfx.em then JSVal.num (qMul n BASE_FONT_SIZE)
          else JSVal.num n) = _
    rw [hcan, matchUnit_int u hne hall]
    cases u with
    | rem => show JSVal.num (qMul _ _) = _; rw [qMul_eq]; rfl
    | em => show JSVal.num (qMul _ _) = _; rw [qMul_eq]; rfl
    | px => show JSVal.num _ = _; rw [show unitFactor UnitSfx.px = 1 from rfl, mul_one]
    | noUnit => show JSVal.num _ = _; rw [show unitFactor UnitSfx.noUnit = 1 from rfl, mul_one]
  · intro a b u hall hbne hball
    have hassoc : a ++ '.' :: (b ++ unitChars u) = (a ++ '.' :: b) ++ unitChars u := by simp
    have hcan : lowerTrimChars ((a ++ '.' :: b) ++ unitChars u)
        = (a ++ '.' :: b) ++ unitChars u := by
      refine lowerTrimChars_id (fun c hc => ?_) (fun c hc => ?_) <;>
        rcases List.mem_append.mp hc with hca | hcu
      · rcases List.mem_append.mp hca with hd | hd
        · exact digit_not_ws (hall c hd)
        · rcases List.mem_cons.mp hd with rfl | hd2
          · decide
          · exact digit_not_ws (hball c hd2)
      · exact (unitChars_tame u c hcu).1
      · rcases List.mem_append.mp hca with hd | hd
        · exact digit_lower_fix (hall c hd)
        · rcases List.mem_cons.mp hd with rfl | hd2
          · decide
          · exact digit_lower_fix (hball c hd2)
      · exact (unitChars_tame u c hcu).2
    rw [hassoc]
    show (match matchUnit (lowerTrimChars ((a ++ '.' :: b) ++ unitChars u)) with
      | none => JSVal.null
      | some (n, u') =>
          if u' = UnitSfx.rem || u' = UnitSfx.em then JSVal.num (qMul n BASE_FONT_SIZE)
          else JSVal.num n) = _
    rw [hcan, matchUnit_frac u hall hbne hball]
    have hval : qAdd (digitsToNat a : ℚ) (qDiv (digitsToNat b : ℚ) (ratNpow 10 b.length))
        = (digitsToNat a : ℚ) + (digitsToNat b : ℚ) / 10 ^ b.length := by
      rw [qAdd_eq, qDiv_eq, ratNpow_eq_pow]
    cases u with
    | rem => show JSVal.num (qMul _ _) = _; rw [qMul_eq, hval]; rfl
    | em => show JSVal.num (qMul _ _) = _; rw [qMul_eq, hval]; rfl
    | px =>
        show JSVal.num _ = _
        rw [hval, show unitFactor UnitSfx.px = 1 from rfl, mul_one]
    | noUnit =>
        show JSVal.num _ = _
        rw [hval, show unitFactor UnitSfx.noUnit = 1 from rfl, mul_one]
  · intro s hns
    show (match matchUnit (lowerTrimChars s.data) with
      | none => JSVal.null
      | some (n, u') =>
          if u' = UnitSfx.rem || u' = UnitSfx.em then JSVal.num (qMul n BASE_FONT_SIZE)
          else JSVal.num n) = JSVal.null
    cases hm : matchUnit (lowerTrimChars s.data) with
    | none => rfl
    | some p =>
        obtain ⟨n, u⟩ := p
        exact absurd (matchUnit_sound hm) hns

/-- Witness for C8: a number passes through; `"12px"` resolves to 12,
`"1.5rem"` to 24 (1.5 × 16), and `"5vw"` — an unrecognized unit — is
rejected. -/
theorem c8_fontSize_normalizer_witness :
    normFontSizeOpt (JSVal.num (mkRat 17 2)) = JSVal.num (mkRat 17 2)
    ∧ normFontSizeOpt (JSVal.str "12px") = JSVal.num 12
    ∧ normFontSizeOpt (JSVal.str "1.5rem") = JSVal.num 24
    ∧ normFontSizeOpt (JSVal.str "5vw") = JSVal.null := by
  refine ⟨c8_fontSize_option_normalizer.1 (mkRat 17 2), ?_, ?_, ?_⟩
  · rw [show ("12px" : String) = String.mk (['1', '2'] ++ unitChars UnitSfx.px) from by decide]
    rw [c8_fontSize_option_normalizer.2.1 ['1', '2'] UnitSfx.px (by decide) (by decide)]
    simp only [← qMul_eq]
    decide
  · rw [show ("1.5rem" : String)
        = String.mk (['1'] ++ '.' :: (['5'] ++ unitChars UnitSfx.rem)) from by decide]
    rw [c8_fontSize_option_normalizer.2.2.1 ['1'] ['5'] UnitSfx.rem (by decide) (by decide)
      (by decide)]
    simp only [← qMul_eq, ← qAdd_eq, ← qDiv_eq, ← ratNpow_eq_pow]
    decide
  · apply c8_fontSize_option_normalizer.2.2.2.1
    rw [show lowerTrimChars ("5vw" : String).data = ['5', 'v', 'w'] from by decide]
    rintro ⟨pre, u, heq, hshape⟩
    cases u with
    | rem =>
        simp only [unitChars] at heq
        have hpre : pre = [] := by
          have hl := congrArg List.length heq
          simpa using hl
        rw [hpre] at heq
        simp at heq
    | em =>
        simp only [unitChars] at heq
        have hlen : pre.length = 1 := by
          have hl := congrArg List.length heq
          simp at hl
          omega
        obtain ⟨c, rfl⟩ := List.length_eq_one.mp hlen
        simp at heq
    | px =>
        simp only [unitChars] at heq
        have hlen : pre.length = 1 := by
          have hl := congrArg List.length heq
          simp at hl
          omega
        obtain ⟨c, rfl⟩ := List.length_eq_one.mp hlen
        simp at heq
    | noUnit =>
        simp only [unitChars, List.append_nil] at heq
        rw [← heq] at hshape
        rcases hshape with ⟨_, hall⟩ | ⟨a, b, heq2, _, _, _⟩
        · exact absurd (hall 'v' (by decide)) (by decide)
        · have hmem : ('.' : Char) ∈ a ++ '.' :: b :=
            List.mem_append.mpr (Or.inr (List.mem_cons_self _ _))
          rw [← heq2] at hmem
          simp at hmem

end Typescaler
